import Mathlib

/-!
# Verification of the `orderbook-rs` matching core

A shallow embedding of the repository's source files
(`order.rs`, `price_level.rs`, `book_side.rs`, `order_book.rs`)
together with theorems settling the specification's claims.

Modelling conventions:
* `rust_decimal::Decimal` is embedded as `Int`: the source only uses exact
  addition, subtraction, negation-free arithmetic and the total order, and
  every value occurring in the claims is an integer.
* `uuid::Uuid` and `std::time::Instant` are opaque identifiers / monotonic
  markers; both are embedded as `Nat`.  The ambient suppliers
  (`Uuid::new_v4()`, `Instant::now()`) are embedded as counters threaded
  through the `OrderBook` state (`nextId`, `nextTime`), bumped exactly where
  the source calls `Order::new`.
* `HashMap` and `RBTree` are embedded as association lists; a `BookSide`'s
  two indices (`prices : HashMap`, `price_tree : RBTree`) always hold the
  same `price ↦ shared level` entries and are mutated in lockstep through
  `Rc<RefCell<_>>` aliases, so they are embedded as one association list
  `levels`, kept in ascending key order (the red-black-tree order); the
  `Rc` alias a matching loop holds is embedded as the level's key, and each
  mutation through the alias is an update of the entry at that key.
* `u32` counters (`num_orders`, `depth`) are embedded as `Nat`; the source's
  `-= 1` is `Nat` subtraction.  In every scenario and invariant proved below
  the counters are nonzero when decremented, so no borrow/underflow occurs.
* The `while` loops of the matching algorithm are embedded as fuel-indexed
  recursions.  The fuel supplied at each entry point dominates the number of
  iterations the source performs from any state reachable in the claims
  (each iteration either zeroes the remaining quantity or removes one
  resting order); on states where the source would loop forever (the
  "this should never happen" branch) the embedding stops after the fuel.
  All universally quantified theorems below hold for every fuel value.
-/

namespace OrderBookRs

/-- `rust_decimal::Decimal`: exact arithmetic with a total order. -/
abbrev Decimal := Int

/-- `order.rs`: `enum Side { Bid, Ask }`. -/
inductive Side where
  | Bid : Side
  | Ask : Side
deriving DecidableEq, Repr

/-- `order.rs`: `struct Order` (`id: Uuid`, `side`, `timestamp: Instant`,
`price`, `quantity`). -/
structure Order where
  id : Nat
  side : Side
  timestamp : Nat
  price : Decimal
  quantity : Decimal
deriving DecidableEq, Repr

/-- `price_level.rs`: `struct PriceLevel { volume, price, orders: VecDeque }`.
The queue's front is the list's head. -/
structure PriceLevel where
  volume : Decimal
  price : Decimal
  orders : List Order
deriving DecidableEq, Repr

namespace PriceLevel

/-- `PriceLevel::new`. -/
def new (price : Decimal) : PriceLevel :=
  { volume := 0, price := price, orders := [] }

/-- `PriceLevel::append`: push to the back, add the quantity to `volume`. -/
def append (pl : PriceLevel) (order : Order) : PriceLevel :=
  { pl with volume := pl.volume + order.quantity, orders := pl.orders ++ [order] }

/-- `PriceLevel::remove`: the source subtracts `order.quantity` from `volume`
unconditionally, then scans for the first element `o` with `o == order`
(full structural equality) and removes it, returning it; `None` when no such
element exists. -/
def remove (pl : PriceLevel) (order : Order) : Option Order × PriceLevel :=
  let pl1 : PriceLevel := { pl with volume := pl.volume - order.quantity }
  match pl1.orders.findIdx? (fun o => o == order) with
  | some pos => (pl1.orders.get? pos, { pl1 with orders := pl1.orders.eraseIdx pos })
  | none => (none, pl1)

/-- `PriceLevel::len`. -/
def len (pl : PriceLevel) : Nat :=
  pl.orders.length

/-- `PriceLevel::front`. -/
def front (pl : PriceLevel) : Option Order :=
  pl.orders.head?

/-- `PriceLevel::replace_front`: overwrite every field of the front order in
place (if any), then adjust `volume` by the front's old quantity (`0` when
the queue is empty) against the new order's quantity. -/
def replace_front (pl : PriceLevel) (order : Order) : PriceLevel :=
  match pl.orders with
  | [] => { pl with volume := pl.volume - 0 + order.quantity }
  | o :: rest =>
      { pl with orders := order :: rest,
                volume := pl.volume - o.quantity + order.quantity }

end PriceLevel

/-! Association-list operations shared by the embeddings of `HashMap` and
`RBTree`.  `lookup` returns the first entry with the key; `update` rewrites
that entry in place; `insertSorted` inserts a fresh key in ascending order;
`eraseKey` deletes the first entry with the key. -/

/-- First value stored at `k`, as `HashMap::get` / `RBTree::get`. -/
def lookupKey {α : Type} : List (Decimal × α) → Decimal → Option α
  | [], _ => none
  | (p, v) :: rest, k => if p = k then some v else lookupKey rest k

/-- Rewrite the first entry at `k` (mutation through the shared `RefCell`). -/
def updateKey {α : Type} : List (Decimal × α) → Decimal → α → List (Decimal × α)
  | [], _, _ => []
  | (p, v) :: rest, k, nv =>
      if p = k then (p, nv) :: rest else (p, v) :: updateKey rest k nv

/-- Insert a binding for a key not yet present, keeping ascending key order
(`HashMap::insert` + `RBTree::insert`, called only after a failed lookup). -/
def insertSorted {α : Type} : List (Decimal × α) → Decimal → α → List (Decimal × α)
  | [], k, nv => [(k, nv)]
  | (p, v) :: rest, k, nv =>
      if k < p then (k, nv) :: (p, v) :: rest
      else (p, v) :: insertSorted rest k nv

/-- Delete the first entry at `k` (`HashMap::remove` + `RBTree::remove`). -/
def eraseKey {α : Type} : List (Decimal × α) → Decimal → List (Decimal × α)
  | [], _ => []
  | (p, v) :: rest, k => if p = k then rest else (p, v) :: eraseKey rest k

/-- `book_side.rs`: `struct BookSide`.  `levels` embeds both `prices :
HashMap<Decimal, Rc<RefCell<PriceLevel>>>` and `price_tree : RBTree<..>`,
which always carry the same entries (they are inserted into and removed from
together, and alias the same cells); the list is kept in ascending price
order so that the tree's `get_first`/`get_last` are its head/last. -/
structure BookSide where
  levels : List (Decimal × PriceLevel)
  volume : Decimal
  num_orders : Nat
  depth : Nat
deriving DecidableEq, Repr

namespace BookSide

/-- `BookSide::new`. -/
def new : BookSide :=
  { levels := [], volume := 0, num_orders := 0, depth := 0 }

/-- `BookSide::append`: get-or-create the level at `order.price` (creation
inserts into both indices and bumps `depth`), append to it, bump
`num_orders` and `volume`. -/
def append (s : BookSide) (order : Order) : BookSide :=
  match lookupKey s.levels order.price with
  | some pl =>
      { s with levels := updateKey s.levels order.price (pl.append order),
               num_orders := s.num_orders + 1,
               volume := s.volume + order.quantity }
  | none =>
      { s with levels := insertSorted s.levels order.price
                           ((PriceLevel.new order.price).append order),
               depth := s.depth + 1,
               num_orders := s.num_orders + 1,
               volume := s.volume + order.quantity }

/-- `BookSide::remove`: when a level exists at `order.price`, the source
decrements `num_orders` and `volume` *before* delegating to
`PriceLevel::remove`, and erases the level from both indices when it ends up
empty; when no level exists it is a no-op returning `None`. -/
def remove (s : BookSide) (order : Order) : Option Order × BookSide :=
  match lookupKey s.levels order.price with
  | none => (none, s)
  | some pl =>
      let r := pl.remove order
      let s1 : BookSide :=
        { s with num_orders := s.num_orders - 1,
                 volume := s.volume - order.quantity,
                 levels := updateKey s.levels order.price r.2 }
      if r.2.len ≤ 0 then
        (r.1, { s1 with levels := eraseKey s1.levels order.price,
                        depth := s1.depth - 1 })
      else
        (r.1, s1)

/-- `BookSide::min_price_level`: first entry of the ordered index when
`depth > 0`.  The key is returned alongside, embedding the `Rc` handle. -/
def min_price_level (s : BookSide) : Option (Decimal × PriceLevel) :=
  if s.depth > 0 then s.levels.head? else none

/-- `BookSide::max_price_level`: last entry of the ordered index when
`depth > 0`. -/
def max_price_level (s : BookSide) : Option (Decimal × PriceLevel) :=
  if s.depth > 0 then s.levels.getLast? else none

end BookSide

/-- `order_book.rs`: `enum FillStatus { Full, Partial }`. -/
inductive FillStatus where
  | Full : FillStatus
  | Partial : FillStatus
deriving DecidableEq, Repr

/-- `order_book.rs`: `struct Fill { order_id, status, price, quantity }`. -/
structure Fill where
  order_id : Nat
  status : FillStatus
  price : Decimal
  quantity : Decimal
deriving DecidableEq, Repr

/-- `order_book.rs`: `struct OrderResult { done, partial, quantity_filled }`.
The source's `partial` field (a Lean keyword) is named `resting` here. -/
structure OrderResult where
  done : List Fill
  resting : Option Order
  quantity_filled : Decimal
deriving DecidableEq, Repr

/-- Association-list operations embedding `HashMap<Uuid, Order>`. -/
def lookupId : List (Nat × Order) → Nat → Option Order
  | [], _ => none
  | (i, o) :: rest, k => if i = k then some o else lookupId rest k

/-- `HashMap::insert`: replace the first binding of the key, else append. -/
def insertId : List (Nat × Order) → Nat → Order → List (Nat × Order)
  | [], k, v => [(k, v)]
  | (i, o) :: rest, k, v =>
      if i = k then (k, v) :: rest else (i, o) :: insertId rest k v

/-- `HashMap::remove` (the bindings left behind). -/
def eraseId : List (Nat × Order) → Nat → List (Nat × Order)
  | [], _ => []
  | (i, o) :: rest, k => if i = k then rest else (i, o) :: eraseId rest k

/-- `order_book.rs`: `struct OrderBook { orders, bids, asks }`, extended with
the two ambient counters that embed `Uuid::new_v4()` and `Instant::now()`. -/
structure OrderBook where
  orders : List (Nat × Order)
  bids : BookSide
  asks : BookSide
  nextId : Nat
  nextTime : Nat
deriving DecidableEq, Repr

namespace OrderBook

/-- `OrderBook::new` (counters start at 0). -/
def empty : OrderBook :=
  { orders := [], bids := BookSide.new, asks := BookSide.new,
    nextId := 0, nextTime := 0 }

/-- `Order::new(side, quantity, price, Instant::now())` with a fresh
`Uuid::new_v4()`: draws both counters. -/
def newOrder (b : OrderBook) (side : Side) (quantity price : Decimal) :
    Order × OrderBook :=
  ({ id := b.nextId, side := side, timestamp := b.nextTime,
     price := price, quantity := quantity },
   { b with nextId := b.nextId + 1, nextTime := b.nextTime + 1 })

/-- The `BookSide` named by a side (asks hold `Side.Ask` orders). -/
def sideOf (b : OrderBook) : Side → BookSide
  | Side.Ask => b.asks
  | Side.Bid => b.bids

/-- Replace the `BookSide` named by a side. -/
def setSide (b : OrderBook) : Side → BookSide → OrderBook
  | Side.Ask, s => { b with asks := s }
  | Side.Bid, s => { b with bids := s }

/-- `OrderBook::other_book_side`: the side an incoming order trades against. -/
def other_book_side (b : OrderBook) : Side → BookSide
  | Side.Ask => b.bids
  | Side.Bid => b.asks

/-- The opposing side as a `Side` tag (`other_book_side b s = sideOf b
(oppositeSide s)`). -/
def oppositeSide : Side → Side
  | Side.Ask => Side.Bid
  | Side.Bid => Side.Ask

/-- `OrderBook::get`. -/
def get (b : OrderBook) (id : Nat) : Option Order :=
  lookupId b.orders id

/-- `OrderBook::append` (private in the source): unconditional insert into
the global index and into the side named by `order.side`. -/
def append (b : OrderBook) (order : Order) : OrderBook :=
  let b1 : OrderBook := { b with orders := insertId b.orders order.id order }
  match order.side with
  | Side.Ask => { b1 with asks := b1.asks.append order }
  | Side.Bid => { b1 with bids := b1.bids.append order }

/-- `OrderBook::remove`: delete from the global index; when found, cascade
into the owning `BookSide`. -/
def remove (b : OrderBook) (id : Nat) : Option Order × OrderBook :=
  match lookupId b.orders id with
  | none => (none, b)
  | some order =>
      let b1 : OrderBook := { b with orders := eraseId b.orders id }
      match order.side with
      | Side.Ask =>
          let r := b1.asks.remove order
          (r.1, { b1 with asks := r.2 })
      | Side.Bid =>
          let r := b1.bids.remove order
          (r.1, { b1 with bids := r.2 })

/-- The book state after the partial-fill arm of the
`fill_at_price_level` loop body: the front order of the level at `(lside,
p)` is rewritten in place with quantity reduced by `qleft` (through the
shared cell, hence visible to both indices), the reduced order is mirrored
into the global index, and the volume of the side owning the order
(selected by `o.side` in the source) is adjusted by the quantity delta. -/
def partialFillBook (b : OrderBook) (lside : Side) (p : Decimal)
    (pl : PriceLevel) (head : Order) (qleft : Decimal) : OrderBook :=
  let o : Order := { head with quantity := head.quantity - qleft }
  let side0 := b.sideOf lside
  let b1 := b.setSide lside
    { side0 with levels := updateKey side0.levels p (pl.replace_front o) }
  let b2 : OrderBook := { b1 with orders := insertId b1.orders o.id o }
  match o.side with
  | Side.Ask =>
      { b2 with asks :=
          { b2.asks with volume := b2.asks.volume - head.quantity + o.quantity } }
  | Side.Bid =>
      { b2 with bids :=
          { b2.bids with volume := b2.bids.volume - head.quantity + o.quantity } }

/-- Record one fill in an `OrderResult`
(`order_result.done.push(..); order_result.quantity_filled += ..`). -/
def pushFill (res : OrderResult) (f : Fill) (q : Decimal) : OrderResult :=
  { res with done := res.done ++ [f], quantity_filled := res.quantity_filled + q }

/-- One pass of the `while` loop of `OrderBook::fill_at_price_level`,
fuel-indexed.  `lside` and `p` embed the `Rc<RefCell<PriceLevel>>` argument:
the cell is the entry at key `p` of the side `lside`'s indices, and is
looked up afresh each iteration (once the level has been deleted from the
book the alias holds an empty queue, so the loop's `len() > 0` test fails —
embedded as a failed lookup).  The `None` arm of the source's
`match self.remove(id)` prints "this should never happen" and repeats the
loop on unchanged state; the embedding spends fuel there. -/
def fillLoop (lside : Side) (p : Decimal) :
    Nat → OrderBook → OrderResult → Decimal → OrderResult × Decimal × OrderBook
  | 0, b, res, qleft => (res, qleft, b)
  | fuel + 1, b, res, qleft =>
    if qleft > 0 then
      match lookupKey (b.sideOf lside).levels p with
      | none => (res, qleft, b)
      | some pl =>
        if pl.len > 0 then
          match pl.front with
          | none => (res, qleft, b)
          | some head =>
          if qleft < head.quantity then
            -- partial fill: the recorded fill carries the reduced order's
            -- id and price, which equal the head's
            fillLoop lside p fuel (partialFillBook b lside p pl head qleft)
              (pushFill res { order_id := head.id, status := FillStatus.Partial,
                              price := head.price, quantity := qleft } qleft) 0
          else
            -- full fill: take the head off the whole book by id
            match (b.remove head.id).1 with
            | some order =>
                fillLoop lside p fuel (b.remove head.id).2
                  (pushFill res { order_id := order.id, status := FillStatus.Full,
                                  price := order.price, quantity := order.quantity }
                    order.quantity)
                  (qleft - order.quantity)
            | none => fillLoop lside p fuel (b.remove head.id).2 res qleft
        else (res, qleft, b)
    else (res, qleft, b)

/-- `OrderBook::fill_at_price_level`.  The fuel `len + 1` dominates the
iteration count from any state the claims reach: every iteration but the
last removes one order from the level or zeroes the remaining quantity. -/
def fill_at_price_level (b : OrderBook) (lside : Side) (p : Decimal)
    (quantity : Decimal) : OrderResult × OrderBook :=
  let fuel := (match lookupKey (b.sideOf lside).levels p with
               | some pl => pl.len
               | none => 0) + 1
  let r := fillLoop lside p fuel b ⟨[], none, 0⟩ quantity
  (r.1, r.2.2)

/-- The `loop` of `OrderBook::submit_market_order`, fuel-indexed: stop when
the remaining quantity or the opposing side's `num_orders` reaches zero,
else drain the opposing best level (minimum ask price for a bid, maximum
bid price for an ask). -/
def marketLoop (side : Side) :
    Nat → OrderBook → OrderResult → Decimal → OrderResult × OrderBook
  | 0, b, res, _ => (res, b)
  | fuel + 1, b, res, qleft =>
    if qleft ≤ 0 ∨ (b.other_book_side side).num_orders ≤ 0 then (res, b)
    else
      match (match side with
             | Side.Bid => (b.other_book_side side).min_price_level
             | Side.Ask => (b.other_book_side side).max_price_level) with
      | none => (res, b)
      | some (p, _) =>
          let r := b.fill_at_price_level (oppositeSide side) p qleft
          let res1 : OrderResult :=
            { res with done := res.done ++ r.1.done,
                       quantity_filled := res.quantity_filled + r.1.quantity_filled }
          marketLoop side fuel r.2 res1 (qleft - r.1.quantity_filled)

/-- `OrderBook::submit_market_order`. -/
def submit_market_order (b : OrderBook) (side : Side) (quantity : Decimal) :
    OrderResult × OrderBook :=
  marketLoop side ((b.other_book_side side).num_orders + 1) b ⟨[], none, 0⟩ quantity

/-- The crossing comparator of `OrderBook::submit_limit_order`:
`greater_than_or_equal(price, best)` for a bid, `less_than_or_equal` for an
ask; applied to the submitted price and the best level's own `price` field. -/
def crosses : Side → Decimal → Decimal → Prop
  | Side.Bid, price, best => price ≥ best
  | Side.Ask, price, best => price ≤ best

instance (s : Side) (price best : Decimal) : Decidable (crosses s price best) := by
  cases s <;> simp only [crosses] <;> infer_instance

/-- The `loop` of `OrderBook::submit_limit_order`: fetch the opposing best
level first; stop when the remaining quantity or the opposing `num_orders`
reaches zero or the submitted price no longer crosses the level's price. -/
def limitLoop (side : Side) (price : Decimal) :
    Nat → OrderBook → OrderResult → Decimal → OrderResult × Decimal × OrderBook
  | 0, b, res, qleft => (res, qleft, b)
  | fuel + 1, b, res, qleft =>
    match (match side with
           | Side.Bid => (b.other_book_side side).min_price_level
           | Side.Ask => (b.other_book_side side).max_price_level) with
    | none => (res, qleft, b)
    | some (p, pl) =>
      if qleft ≤ 0 ∨ (b.other_book_side side).num_orders ≤ 0 ∨
          ¬ crosses side price pl.price then
        (res, qleft, b)
      else
        let r := b.fill_at_price_level (oppositeSide side) p qleft
        let res1 : OrderResult :=
          { res with done := res.done ++ r.1.done,
                     quantity_filled := res.quantity_filled + r.1.quantity_filled }
        limitLoop side price fuel r.2 res1 (qleft - r.1.quantity_filled)

/-- `OrderBook::submit_limit_order`: the drain loop, then — when quantity is
left — a fresh resting order on the submitting side, appended to the book
and reported in the result (the source's `partial` field). -/
def submit_limit_order (b : OrderBook) (side : Side) (quantity price : Decimal) :
    OrderResult × OrderBook :=
  let r := limitLoop side price ((b.other_book_side side).num_orders + 1) b
             ⟨[], none, 0⟩ quantity
  let res := r.1
  let qleft := r.2.1
  let b1 := r.2.2
  if qleft > 0 then
    let n := b1.newOrder side qleft price
    let b2 := n.2.append n.1
    ({ res with resting := some n.1 }, b2)
  else
    (res, b1)

end OrderBook

/-! ## Derived observations used by the claims -/

/-- All orders resting on a side, best-level segment first, each level
front-first. -/
def BookSide.sideOrders (s : BookSide) : List Order :=
  (s.levels.map (fun e => e.2.orders)).flatten

/-- All orders resting anywhere in the book (asks then bids). -/
def OrderBook.bookOrders (b : OrderBook) : List Order :=
  b.asks.sideOrders ++ b.bids.sideOrders

/-- The ids of all orders resting anywhere in the book. -/
def OrderBook.bookIds (b : OrderBook) : List Nat :=
  (b.bookOrders.map (fun o => o.id))

/-- Sum of the queue lengths of a side's levels. -/
def BookSide.sumLens (s : BookSide) : Nat :=
  (s.levels.map (fun e => e.2.len)).sum

/-- Sum of the `volume` fields of a side's levels. -/
def BookSide.sumVolumes (s : BookSide) : Decimal :=
  (s.levels.map (fun e => e.2.volume)).sum

/-- Structural well-formedness of one side: level keys are pairwise
distinct (the two indices are keyed consistently), each level's `price`
equals its key, and every member order carries that price and the side's
tag. -/
def sideShape (s : BookSide) (sd : Side) : Prop :=
  (s.levels.map (fun e => e.1)).Nodup ∧
  ∀ e ∈ s.levels, e.2.price = e.1 ∧ ∀ o ∈ e.2.orders, o.price = e.1 ∧ o.side = sd

instance (s : BookSide) (sd : Side) : Decidable (sideShape s sd) := by
  unfold sideShape
  infer_instance

/-- The global-index invariant of claim C3: both sides are well-shaped, the
global id→order map holds (up to order) exactly the pairs `(o.id, o)` for
the orders `o` resting in the levels — so an order is in the global index
iff it rests in the book, with identical id/side/timestamp/price/quantity
in both places — no id rests twice (exactly one `PriceLevel` of exactly one
`BookSide`), and every indexed id is below the id supplier's counter. -/
def OrderBook.wf (b : OrderBook) : Prop :=
  sideShape b.asks Side.Ask ∧ sideShape b.bids Side.Bid ∧
  List.Perm b.orders (b.bookOrders.map (fun o => (o.id, o))) ∧
  b.bookIds.Nodup ∧
  ∀ e ∈ b.orders, e.1 < b.nextId

instance (b : OrderBook) : Decidable (OrderBook.wf b) := by
  unfold OrderBook.wf
  infer_instance

/-- A `BookSide` mutation, as quantified over by claim C2. -/
inductive SideOp where
  | append (o : Order) : SideOp
  | remove (o : Order) : SideOp
deriving DecidableEq, Repr

/-- Run one `BookSide` mutation. -/
def applySideOp (s : BookSide) : SideOp → BookSide
  | SideOp.append o => s.append o
  | SideOp.remove o => (s.remove o).2

/-- Run a sequence of `BookSide` mutations. -/
def applySideOps (s : BookSide) : List SideOp → BookSide
  | [] => s
  | op :: ops => applySideOps (applySideOp s op) ops

/-- Every `remove` in the sequence is invoked with an exact copy of an order
then resting on the side — the only way the `OrderBook` itself ever invokes
it. -/
def validSideOps (s : BookSide) : List SideOp → Prop
  | [] => True
  | SideOp.append o :: ops => validSideOps (s.append o) ops
  | SideOp.remove o :: ops =>
      o ∈ s.sideOrders ∧ validSideOps ((s.remove o).2) ops

instance decValidSideOps : (s : BookSide) → (ops : List SideOp) →
    Decidable (validSideOps s ops)
  | _, [] => Decidable.isTrue trivial
  | s, SideOp.append o :: ops => decValidSideOps (s.append o) ops
  | s, SideOp.remove o :: ops =>
      have := decValidSideOps ((s.remove o).2) ops
      inferInstanceAs (Decidable (_ ∧ _))

/-- The counting invariant of claim C2, together with the structural facts
that make "number of distinct non-empty levels" and "size of both indices"
coincide with `levels.length`: every stored level is non-empty, level keys
are pairwise distinct, each level's `price` and its members' prices equal
its key, and each level's `volume` is the sum of its members' quantities. -/
def sideInvariant (s : BookSide) : Prop :=
  s.num_orders = s.sumLens ∧
  s.volume = s.sumVolumes ∧
  s.depth = s.levels.length ∧
  (s.levels.map (fun e => e.1)).Nodup ∧
  ∀ e ∈ s.levels, e.2.price = e.1 ∧ e.2.orders ≠ [] ∧
      e.2.volume = (e.2.orders.map (fun o => o.quantity)).sum ∧
      ∀ o ∈ e.2.orders, o.price = e.1

instance (s : BookSide) : Decidable (sideInvariant s) := by
  unfold sideInvariant
  infer_instance

/-! ## Concrete scenario states -/

/-- Claim C1's book: asks (price 50, qty 10), then (75, 10) as order A, then
(75, 10) as order B appended after A (ids 0, 1, 2; rising timestamps). -/
def bookC1 : OrderBook :=
  ((({ OrderBook.empty with nextId := 100, nextTime := 100 }).append
      ⟨0, Side.Ask, 0, 50, 10⟩).append
      ⟨1, Side.Ask, 1, 75, 10⟩).append
      ⟨2, Side.Ask, 2, 75, 10⟩

/-- A book holding a single resting ask (price 50, qty 5), seeded through
`submit_limit_order` as the repository's tests do (claims C4, C6, C8). -/
def bookAsk50 : OrderBook :=
  (OrderBook.empty.submit_limit_order Side.Ask 5 50).2

/-- Claim C2's counterexample state: one resting ask (qty 5, price 10), then
`BookSide::remove` called with an order at the same price that is *not* on
the side (different id, qty 3). -/
def sideC2 : BookSide :=
  ((BookSide.new.append ⟨1, Side.Ask, 0, 10, 5⟩).remove
    ⟨2, Side.Ask, 0, 10, 3⟩).2

/-- Claim C9's counterexample level: holds the order (id 1, qty 5, price 10). -/
def levelC9 : PriceLevel :=
  (PriceLevel.new 10).append ⟨1, Side.Ask, 0, 10, 5⟩

/-- Claim C9's counterexample argument: same id 1 as the resting order, but
quantity 3 — a stale copy. -/
def staleC9 : Order :=
  ⟨1, Side.Ask, 0, 10, 3⟩

/-! ## Helper lemmas -/

lemma findIdx_spec (l : List Order) (o : Order) :
    (o ∈ l → ∃ i, l.findIdx? (fun x => x == o) = some i ∧
        l.get? i = some o ∧ l.eraseIdx i = l.erase o) ∧
    (o ∉ l → l.findIdx? (fun x => x == o) = none) := by
  induction l with
  | nil =>
      exact ⟨fun h => absurd h (List.not_mem_nil o), fun _ => rfl⟩
  | cons a t ih =>
      by_cases ha : a = o
      · subst ha
        refine ⟨fun _ => ⟨0, ?_, rfl, ?_⟩,
                fun h => absurd (List.mem_cons_self a t) h⟩
        · simp [List.findIdx?_cons]
        · simp [List.eraseIdx]
      · constructor
        · intro h
          have hmem : o ∈ t := by
            rcases List.mem_cons.mp h with h' | h'
            · exact absurd h'.symm ha
            · exact h'
          obtain ⟨i, h1, h2, h3⟩ := ih.1 hmem
          refine ⟨i + 1, ?_, by simpa using h2, ?_⟩
          · simp [List.findIdx?_cons, ha, h1]
          · simp [List.eraseIdx, h3, List.erase_cons_tail, ha]
        · intro h
          have hno : o ∉ t := fun hm => h (List.mem_cons_of_mem a hm)
          simp [List.findIdx?_cons, ha, ih.2 hno]

/-- Characterization of `PriceLevel::remove`: the volume is decremented
unconditionally, and the first structurally equal member (if any) is removed
and returned. -/
lemma PriceLevel.remove_spec (pl : PriceLevel) (o : Order) :
    (pl.remove o).2.price = pl.price ∧
    (pl.remove o).2.volume = pl.volume - o.quantity ∧
    (o ∈ pl.orders → (pl.remove o).1 = some o ∧
        (pl.remove o).2.orders = pl.orders.erase o) ∧
    (o ∉ pl.orders → (pl.remove o).1 = none ∧
        (pl.remove o).2.orders = pl.orders) := by
  unfold PriceLevel.remove
  refine ⟨?_, ?_, ?_, ?_⟩
  · rcases h' : pl.orders.findIdx? (fun x => x == o) with _ | i <;> simp [h']
  · rcases h' : pl.orders.findIdx? (fun x => x == o) with _ | i <;> simp [h']
  · intro hm
    obtain ⟨i, h1, h2, h3⟩ := (findIdx_spec pl.orders o).1 hm
    simp [h1, h3, ← List.get?_eq_getElem?, h2]
  · intro hm
    simp [(findIdx_spec pl.orders o).2 hm]

lemma lookupKey_mem {α : Type} {l : List (Decimal × α)} {k : Decimal} {v : α}
    (h : lookupKey l k = some v) : (k, v) ∈ l := by
  induction l with
  | nil => simp [lookupKey] at h
  | cons a rest ih =>
      obtain ⟨p, w⟩ := a
      by_cases hp : p = k
      · subst hp
        simp [lookupKey] at h
        subst h
        exact List.mem_cons_self _ _
      · simp [lookupKey, hp] at h
        exact List.mem_cons_of_mem _ (ih h)

lemma lookupKey_none {α : Type} {l : List (Decimal × α)} {k : Decimal}
    (h : lookupKey l k = none) : ∀ e ∈ l, e.1 ≠ k := by
  induction l with
  | nil => intro e he; cases he
  | cons a rest ih =>
      obtain ⟨p, w⟩ := a
      by_cases hp : p = k
      · subst hp; simp [lookupKey] at h
      · simp [lookupKey, hp] at h
        intro e he
        rcases List.mem_cons.mp he with he' | he'
        · subst he'; exact hp
        · exact ih h e he'

lemma lookupKey_of_mem {α : Type} {l : List (Decimal × α)} {k : Decimal} {v : α}
    (hnd : (l.map (fun e => e.1)).Nodup) (hm : (k, v) ∈ l) :
    lookupKey l k = some v := by
  induction l with
  | nil => cases hm
  | cons a t ih =>
      obtain ⟨p, w⟩ := a
      rcases List.mem_cons.mp hm with he | ht
      · cases he
        simp [lookupKey]
      · have hp : p ≠ k := by
          intro h
          subst h
          have hk : p ∈ t.map (fun e => e.1) :=
            List.mem_map.mpr ⟨(p, v), ht, rfl⟩
          exact (List.nodup_cons.mp (by simpa using hnd)).1 hk
        simp [lookupKey, hp]
        exact ih (List.nodup_cons.mp (by simpa using hnd)).2 ht

/-- Decomposition at a found key: the list splits around the first entry at
`k`, and `updateKey` rewrites exactly that entry. -/
lemma lookupKey_decomp {α : Type} {l : List (Decimal × α)} {k : Decimal} {v : α}
    (h : lookupKey l k = some v) :
    ∃ l1 l2, l = l1 ++ (k, v) :: l2 ∧ (∀ e ∈ l1, e.1 ≠ k) ∧
      ∀ nv, updateKey l k nv = l1 ++ (k, nv) :: l2 := by
  induction l with
  | nil => simp [lookupKey] at h
  | cons a rest ih =>
      obtain ⟨p, w⟩ := a
      by_cases hp : p = k
      · subst hp
        simp [lookupKey] at h
        subst h
        exact ⟨[], rest, by simp, by simp, fun nv => by simp [updateKey]⟩
      · simp [lookupKey, hp] at h
        obtain ⟨l1, l2, hl, hne, hupd⟩ := ih h
        refine ⟨(p, w) :: l1, l2, by simp [hl], ?_, fun nv => by simp [updateKey, hp, hupd nv]⟩
        intro e he
        rcases List.mem_cons.mp he with he' | he'
        · subst he'; exact hp
        · exact hne e he'

lemma eraseKey_append {α : Type} (l1 l2 : List (Decimal × α)) (k : Decimal) (v : α)
    (h : ∀ e ∈ l1, e.1 ≠ k) :
    eraseKey (l1 ++ (k, v) :: l2) k = l1 ++ l2 := by
  induction l1 with
  | nil => simp [eraseKey]
  | cons a t ih =>
      obtain ⟨p, w⟩ := a
      have hp : p ≠ k := h (p, w) (List.mem_cons_self _ _)
      simp [eraseKey, hp]
      exact ih fun e he => h e (List.mem_cons_of_mem _ he)

lemma insertSorted_perm {α : Type} (l : List (Decimal × α)) (k : Decimal) (v : α) :
    List.Perm (insertSorted l k v) ((k, v) :: l) := by
  induction l with
  | nil => simp [insertSorted]
  | cons a t ih =>
      obtain ⟨p, w⟩ := a
      by_cases hk : k < p
      · simp [insertSorted, hk]
      · simp only [insertSorted, if_neg hk]
        exact List.Perm.trans (ih.cons (p, w)) (List.Perm.swap (k, v) (p, w) t)

lemma lookupKey_append_left {α : Type} (l1 l2 : List (Decimal × α)) (k : Decimal) (v : α)
    (h : ∀ e ∈ l1, e.1 ≠ k) :
    lookupKey (l1 ++ (k, v) :: l2) k = some v := by
  induction l1 with
  | nil => simp [lookupKey]
  | cons a t ih =>
      obtain ⟨p, w⟩ := a
      have hp : p ≠ k := h (p, w) (List.mem_cons_self _ _)
      simp [lookupKey, hp]
      exact ih fun e he => h e (List.mem_cons_of_mem _ he)

lemma lookupKey_update_self {α : Type} {l : List (Decimal × α)} {k : Decimal} {v : α}
    (hl : lookupKey l k = some v) (nv : α) :
    lookupKey (updateKey l k nv) k = some nv := by
  obtain ⟨l1, l2, _, hne, hupd⟩ := lookupKey_decomp hl
  rw [hupd nv]
  exact lookupKey_append_left l1 l2 k nv hne

lemma sideOf_setSide_self (b : OrderBook) (sd : Side) (s : BookSide) :
    ((b.setSide sd s).sideOf sd) = s := by
  cases sd <;> rfl

/-- `BookSide::append` preserves the counting invariant for every order. -/
lemma sideInvariant_append (s : BookSide) (o : Order) (hs : sideInvariant s) :
    sideInvariant (s.append o) := by
  obtain ⟨hn, hv, hd, hkeys, hlev⟩ := hs
  unfold BookSide.append
  cases hlook : lookupKey s.levels o.price with
  | some pl =>
      obtain ⟨l1, l2, hl, hne, hupd⟩ := lookupKey_decomp hlook
      have hple := hlev (o.price, pl) (lookupKey_mem hlook)
      dsimp only at hple
      simp only [hupd]
      refine ⟨?_, ?_, ?_, ?_, ?_⟩
      · rw [hn]
        unfold BookSide.sumLens
        rw [hl]
        simp [PriceLevel.append, PriceLevel.len]
        omega
      · rw [hv]
        unfold BookSide.sumVolumes
        rw [hl]
        simp [PriceLevel.append]
        ring
      · rw [hd, hl]
        simp
      · have : ((l1 ++ (o.price, pl.append o) :: l2).map (fun e => e.1)) =
            (s.levels.map (fun e => e.1)) := by
          rw [hl]; simp
        rw [this]
        exact hkeys
      · intro e he
        rcases List.mem_append.mp he with he' | he'
        · exact hlev e (by rw [hl]; exact List.mem_append_left _ he')
        · rcases List.mem_cons.mp he' with he'' | he''
          · subst he''
            refine ⟨by simpa [PriceLevel.append] using hple.1, by simp [PriceLevel.append], ?_, ?_⟩
            · simp [PriceLevel.append, hple.2.2.1]
            · intro o' ho'
              simp only [PriceLevel.append, List.mem_append, List.mem_singleton] at ho'
              rcases ho' with ho' | ho'
              · exact hple.2.2.2 o' ho'
              · subst ho'; rfl
          · exact hlev e (by rw [hl]; exact List.mem_append_right _ (List.mem_cons_of_mem _ he''))
  | none =>
      have hperm := insertSorted_perm s.levels o.price ((PriceLevel.new o.price).append o)
      refine ⟨?_, ?_, ?_, ?_, ?_⟩
      · rw [hn]
        unfold BookSide.sumLens
        rw [(hperm.map (fun e => e.2.len)).sum_eq]
        simp [PriceLevel.append, PriceLevel.new, PriceLevel.len]
        omega
      · rw [hv]
        unfold BookSide.sumVolumes
        rw [(hperm.map (fun e => e.2.volume)).sum_eq]
        simp [PriceLevel.append, PriceLevel.new]
        ring
      · rw [hd, hperm.length_eq]
        simp
      · have hnd := (hperm.map (fun e => e.1)).nodup_iff
        refine hnd.mpr (List.nodup_cons.mpr ⟨?_, hkeys⟩)
        intro hk
        obtain ⟨e, he, hek⟩ := List.mem_map.mp hk
        exact lookupKey_none hlook e he hek
      · intro e he
        rcases List.mem_cons.mp (hperm.mem_iff.mp he) with he' | he'
        · subst he'
          refine ⟨by simp [PriceLevel.append, PriceLevel.new], by simp [PriceLevel.append, PriceLevel.new], ?_, ?_⟩
          · simp [PriceLevel.append, PriceLevel.new]
          · intro o' ho'
            simp only [PriceLevel.append, PriceLevel.new, List.nil_append,
              List.mem_singleton] at ho'
            subst ho'; rfl
        · exact hlev e he'

/-- `BookSide::remove` with an exact member copy preserves the counting
invariant. -/
lemma sideInvariant_remove_mem (s : BookSide) (o : Order)
    (hs : sideInvariant s) (hm : o ∈ s.sideOrders) :
    sideInvariant (s.remove o).2 := by
  obtain ⟨hn, hv, hd, hkeys, hlev⟩ := hs
  obtain ⟨os, hos, ho⟩ := List.mem_flatten.mp hm
  obtain ⟨e0, he0, heq⟩ := List.mem_map.mp hos
  obtain ⟨k0, pl0⟩ := e0
  subst heq
  dsimp only at ho
  have hpl0 := hlev (k0, pl0) he0
  dsimp only at hpl0
  have hkey : o.price = k0 := hpl0.2.2.2 o ho
  have hlook : lookupKey s.levels o.price = some pl0 := by
    rw [hkey]; exact lookupKey_of_mem hkeys he0
  obtain ⟨l1, l2, hl, hne, hupd⟩ := lookupKey_decomp hlook
  have hrem := PriceLevel.remove_spec pl0 o
  have hro := hrem.2.2.1 ho
  have hlen : (pl0.remove o).2.len = pl0.orders.length - 1 := by
    simp [PriceLevel.len, hro.2, List.length_erase_of_mem ho]
  have hpos : 0 < pl0.orders.length := List.length_pos.mpr (List.ne_nil_of_mem ho)
  have hqsum : (pl0.orders.map (fun x => x.quantity)).sum =
      o.quantity + ((pl0.orders.erase o).map (fun x => x.quantity)).sum := by
    rw [((List.perm_cons_erase ho).map (fun x => x.quantity)).sum_eq]
    simp
  unfold BookSide.remove
  rw [hlook]
  by_cases hempty : (pl0.remove o).2.len ≤ 0
  · simp only [hempty, if_true]
    have h1 : pl0.orders.length = 1 := by omega
    have herase : pl0.orders.erase o = [] := by
      have : (pl0.orders.erase o).length = 0 := by
        rw [List.length_erase_of_mem ho]; omega
      exact List.length_eq_zero.mp this
    have hvol0 : pl0.volume = o.quantity := by
      rw [hpl0.2.2.1, hqsum, herase]; simp
    have hlevels : eraseKey (updateKey s.levels o.price (pl0.remove o).2) o.price = l1 ++ l2 := by
      rw [hupd]
      exact eraseKey_append l1 l2 o.price _ hne
    refine ⟨?_, ?_, ?_, ?_, ?_⟩
    · simp only [hlevels]
      rw [hn]
      unfold BookSide.sumLens
      rw [hl]
      simp [PriceLevel.len]
      omega
    · simp only [hlevels]
      rw [hv]
      unfold BookSide.sumVolumes
      rw [hl]
      simp
      rw [hvol0]
      ring
    · simp only [hlevels]
      rw [hd, hl]
      simp
    · simp only [hlevels]
      have hsub : List.Sublist (l1 ++ l2) s.levels := by
        rw [hl]
        exact (List.sublist_cons_self (o.price, pl0) l2).append_left l1
      exact (hsub.map (fun e => e.1)).nodup hkeys
    · intro e he
      simp only [hlevels] at he
      refine hlev e ?_
      rw [hl]
      rcases List.mem_append.mp he with he' | he'
      · exact List.mem_append_left _ he'
      · exact List.mem_append_right _ (List.mem_cons_of_mem _ he')
  · simp only [hempty, if_false]
    have hne' : pl0.orders.erase o ≠ [] := by
      intro hcon
      rw [PriceLevel.len, hro.2, hcon] at hempty
      simp at hempty
    refine ⟨?_, ?_, ?_, ?_, ?_⟩
    · rw [hupd]
      rw [hn]
      unfold BookSide.sumLens
      rw [hl]
      simp [PriceLevel.len, hro.2, List.length_erase_of_mem ho]
      omega
    · rw [hupd]
      rw [hv]
      unfold BookSide.sumVolumes
      rw [hl]
      simp [hrem.2.1]
      ring
    · rw [hupd, hd, hl]
      simp
    · rw [hupd]
      have : ((l1 ++ (o.price, (pl0.remove o).2) :: l2).map (fun e => e.1)) =
          (s.levels.map (fun e => e.1)) := by
        rw [hl]; simp
      rw [this]
      exact hkeys
    · rw [hupd]
      intro e he
      rcases List.mem_append.mp he with he' | he'
      · exact hlev e (by rw [hl]; exact List.mem_append_left _ he')
      · rcases List.mem_cons.mp he' with he'' | he''
        · subst he''
          refine ⟨by rw [hrem.1]; exact hkey ▸ hpl0.1, by simpa [hro.2] using hne', ?_, ?_⟩
          · rw [hrem.2.1, hro.2, hpl0.2.2.1, hqsum]
            ring
          · intro o' ho'
            rw [hro.2] at ho'
            have := hpl0.2.2.2 o' (List.erase_subset _ _ ho')
            dsimp only
            rw [this, hkey]
        · exact hlev e (by rw [hl]; exact List.mem_append_right _ (List.mem_cons_of_mem _ he''))


lemma perm_flatten_of_perm {α : Type} {l1 l2 : List (List α)} (h : List.Perm l1 l2) :
    List.Perm l1.flatten l2.flatten := by
  induction h with
  | nil => simp
  | cons x _ ih => simpa using ih.append_left x
  | swap x y l =>
      simp only [List.flatten_cons, ← List.append_assoc]
      exact (List.perm_append_comm).append_right _
  | trans _ _ ih1 ih2 => exact ih1.trans ih2

/-- `BookSide::append` adds exactly the appended order to the side's
resting orders, up to permutation. -/
lemma sideOrders_append_perm (s : BookSide) (o : Order) :
    List.Perm ((s.append o).sideOrders) (o :: s.sideOrders) := by
  unfold BookSide.append
  split
  · rename_i pl hl
    obtain ⟨l1, l2, hl', hne, hupd⟩ := lookupKey_decomp hl
    rw [hupd]
    unfold BookSide.sideOrders
    rw [hl']
    simp only [List.map_append, List.map_cons, List.flatten_append, List.flatten_cons,
      PriceLevel.append]
    have h1 : List.Perm (pl.orders ++ [o] ++ (List.map (fun e => e.2.orders) l2).flatten)
        (o :: (pl.orders ++ (List.map (fun e => e.2.orders) l2).flatten)) := by
      rw [List.append_assoc]
      exact List.perm_middle
    exact (h1.append_left _).trans List.perm_middle
  · rename_i hl
    have hperm := insertSorted_perm s.levels o.price ((PriceLevel.new o.price).append o)
    unfold BookSide.sideOrders
    have h2 := perm_flatten_of_perm (hperm.map (fun e => e.2.orders))
    refine h2.trans ?_
    simp [PriceLevel.append, PriceLevel.new]

/-- Case analysis of one step of the `fill_at_price_level` loop. -/
lemma fillLoop_succ_cases (lside : Side) (p : Decimal) (n : Nat) (b : OrderBook)
    (res : OrderResult) (q : Decimal) :
    (OrderBook.fillLoop lside p (n + 1) b res q = (res, q, b)) ∨
    (∃ pl head, lookupKey (b.sideOf lside).levels p = some pl ∧
      pl.front = some head ∧
      ((q < head.quantity ∧
          OrderBook.fillLoop lside p (n + 1) b res q =
            OrderBook.fillLoop lside p n (OrderBook.partialFillBook b lside p pl head q)
              (OrderBook.pushFill res ⟨head.id, FillStatus.Partial, head.price, q⟩ q) 0) ∨
       (∃ order, (b.remove head.id).1 = some order ∧
          OrderBook.fillLoop lside p (n + 1) b res q =
            OrderBook.fillLoop lside p n (b.remove head.id).2
              (OrderBook.pushFill res ⟨order.id, FillStatus.Full, order.price, order.quantity⟩
                order.quantity)
              (q - order.quantity)) ∨
       ((b.remove head.id).1 = none ∧
          OrderBook.fillLoop lside p (n + 1) b res q =
            OrderBook.fillLoop lside p n (b.remove head.id).2 res q))) := by
  rw [OrderBook.fillLoop]
  by_cases h0 : q > 0
  · rw [if_pos h0]
    split
    · exact Or.inl rfl
    · rename_i pl hl
      by_cases h1 : pl.len > 0
      · rw [if_pos h1]
        split
        · exact Or.inl rfl
        · rename_i head hf
          by_cases h2 : q < head.quantity
          · rw [if_pos h2]
            exact Or.inr ⟨pl, head, hl, hf, Or.inl ⟨h2, rfl⟩⟩
          · rw [if_neg h2]
            split
            · rename_i order hro
              exact Or.inr ⟨pl, head, hl, hf, Or.inr (Or.inl ⟨order, hro, rfl⟩)⟩
            · rename_i hro
              exact Or.inr ⟨pl, head, hl, hf, Or.inr (Or.inr ⟨hro, rfl⟩)⟩
      · rw [if_neg h1]
        exact Or.inl rfl
  · rw [if_neg h0]
    exact Or.inl rfl

lemma remove_counters (b : OrderBook) (id : Nat) :
    (b.remove id).2.nextId = b.nextId ∧ (b.remove id).2.nextTime = b.nextTime := by
  unfold OrderBook.remove
  split
  · exact ⟨rfl, rfl⟩
  · rename_i o hl
    split <;> exact ⟨rfl, rfl⟩

lemma OrderBook.partialFillBook_counters (b : OrderBook) (lside : Side) (p : Decimal)
    (pl : PriceLevel) (head : Order) (q : Decimal) :
    (OrderBook.partialFillBook b lside p pl head q).nextId = b.nextId ∧
    (OrderBook.partialFillBook b lside p pl head q).nextTime = b.nextTime := by
  unfold OrderBook.partialFillBook
  cases lside <;> cases hs : head.side <;>
    simp [OrderBook.setSide, OrderBook.sideOf, hs]

lemma fillLoop_counters (lside : Side) (p : Decimal) (fuel : Nat) :
    ∀ b res q, (OrderBook.fillLoop lside p fuel b res q).2.2.nextId = b.nextId ∧
      (OrderBook.fillLoop lside p fuel b res q).2.2.nextTime = b.nextTime := by
  induction fuel with
  | zero => intro b res q; exact ⟨rfl, rfl⟩
  | succ n ih =>
      intro b res q
      rcases fillLoop_succ_cases lside p n b res q with heq | ⟨pl, head, hl, hf, hcase⟩
      · rw [heq]; exact ⟨rfl, rfl⟩
      · rcases hcase with ⟨hlt, heq⟩ | ⟨order, hro, heq⟩ | ⟨hro, heq⟩
        · rw [heq]
          obtain ⟨hi, ht⟩ := ih (OrderBook.partialFillBook b lside p pl head q) (OrderBook.pushFill res _ q) 0
          obtain ⟨hi2, ht2⟩ := OrderBook.partialFillBook_counters b lside p pl head q
          exact ⟨hi.trans hi2, ht.trans ht2⟩
        · rw [heq]
          obtain ⟨hi, ht⟩ := ih (b.remove head.id).2 _ _
          obtain ⟨hi2, ht2⟩ := remove_counters b head.id
          exact ⟨hi.trans hi2, ht.trans ht2⟩
        · rw [heq]
          obtain ⟨hi, ht⟩ := ih (b.remove head.id).2 _ _
          obtain ⟨hi2, ht2⟩ := remove_counters b head.id
          exact ⟨hi.trans hi2, ht.trans ht2⟩

lemma fill_counters (b : OrderBook) (lside : Side) (p q : Decimal) :
    (b.fill_at_price_level lside p q).2.nextId = b.nextId ∧
    (b.fill_at_price_level lside p q).2.nextTime = b.nextTime := by
  unfold OrderBook.fill_at_price_level
  exact fillLoop_counters lside p _ b _ q

lemma mem_sideOrders_of_entry {s : BookSide} {e : Decimal × PriceLevel}
    (he : e ∈ s.levels) {x : Order} (hx : x ∈ e.2.orders) : x ∈ s.sideOrders :=
  List.mem_flatten.mpr ⟨e.2.orders, List.mem_map.mpr ⟨e, he, rfl⟩, hx⟩

lemma remove_orders_sub (pl : PriceLevel) (o : Order) :
    ∀ x ∈ (pl.remove o).2.orders, x ∈ pl.orders := by
  intro x hx
  by_cases hm : o ∈ pl.orders
  · rw [((PriceLevel.remove_spec pl o).2.2.1 hm).2] at hx
    exact List.erase_subset _ _ hx
  · rw [((PriceLevel.remove_spec pl o).2.2.2 hm).2] at hx
    exact hx

lemma sideOrders_remove_sub (s : BookSide) (o : Order) :
    ∀ x ∈ ((s.remove o).2).sideOrders, x ∈ s.sideOrders := by
  unfold BookSide.remove
  split
  · exact fun x hx => hx
  · rename_i pl hl
    obtain ⟨l1, l2, hl', hne, hupd⟩ := lookupKey_decomp hl
    intro x hx
    by_cases hlen : (pl.remove o).2.len ≤ 0
    all_goals simp only [hlen, if_true, ite_true, if_false, ite_false] at hx
    · -- level became empty and was erased
      have hlev : eraseKey (updateKey s.levels o.price (pl.remove o).2) o.price = l1 ++ l2 := by
        rw [hupd]
        exact eraseKey_append l1 l2 o.price _ hne
      unfold BookSide.sideOrders at hx
      rw [hlev] at hx
      obtain ⟨os, hos, hxo⟩ := List.mem_flatten.mp hx
      obtain ⟨e, he, heq⟩ := List.mem_map.mp hos
      subst heq
      refine mem_sideOrders_of_entry ?_ hxo
      rw [hl']
      rcases List.mem_append.mp he with h' | h'
      · exact List.mem_append_left _ h'
      · exact List.mem_append_right _ (List.mem_cons_of_mem _ h')
    · unfold BookSide.sideOrders at hx
      rw [hupd] at hx
      obtain ⟨os, hos, hxo⟩ := List.mem_flatten.mp hx
      obtain ⟨e, he, heq⟩ := List.mem_map.mp hos
      subst heq
      rcases List.mem_append.mp he with h' | h'
      · exact mem_sideOrders_of_entry (by rw [hl']; exact List.mem_append_left _ h') hxo
      · rcases List.mem_cons.mp h' with h'' | h''
        · subst h''
          have hxpl : x ∈ pl.orders := remove_orders_sub pl o x hxo
          exact mem_sideOrders_of_entry
            (by rw [hl']; exact List.mem_append_right _ (List.mem_cons_self _ _)) hxpl
        · exact mem_sideOrders_of_entry
            (by rw [hl']; exact List.mem_append_right _ (List.mem_cons_of_mem _ h'')) hxo

lemma bookOrders_remove_sub (b : OrderBook) (id : Nat) :
    ∀ x ∈ (b.remove id).2.bookOrders, x ∈ b.bookOrders := by
  unfold OrderBook.remove
  split
  · exact fun x hx => hx
  · rename_i o hl
    split
    · intro x hx
      unfold OrderBook.bookOrders at hx ⊢
      rcases List.mem_append.mp hx with h' | h'
      · exact List.mem_append_left _ (sideOrders_remove_sub b.asks o x h')
      · exact List.mem_append_right _ h'
    · intro x hx
      unfold OrderBook.bookOrders at hx ⊢
      rcases List.mem_append.mp hx with h' | h'
      · exact List.mem_append_left _ h'
      · exact List.mem_append_right _ (sideOrders_remove_sub b.bids o x h')

lemma front_cons {pl : PriceLevel} {head : Order} (hf : pl.front = some head) :
    ∃ tl, pl.orders = head :: tl := by
  cases ho : pl.orders with
  | nil => rw [PriceLevel.front, ho] at hf; cases hf
  | cons a tl =>
      rw [PriceLevel.front, ho] at hf
      simp at hf
      subst hf
      exact ⟨tl, rfl⟩

/-- The partial-fill state update does not change the list of resting order
ids: the head order is replaced in place by an order with the same id. -/
lemma partialFillBook_bookIds (b : OrderBook) (lside : Side) (p : Decimal)
    (pl : PriceLevel) (head : Order)
    (hl : lookupKey (b.sideOf lside).levels p = some pl)
    (hf : pl.front = some head) (q : Decimal) :
    (OrderBook.partialFillBook b lside p pl head q).bookIds = b.bookIds := by
  obtain ⟨tl, horders⟩ := front_cons hf
  obtain ⟨l1, l2, hl', hne, hupd⟩ := lookupKey_decomp hl
  unfold OrderBook.partialFillBook
  cases lside <;>
    simp only [OrderBook.sideOf] at hl' hupd <;>
    cases hs : head.side <;>
    simp only [OrderBook.setSide, OrderBook.sideOf, hs] <;>
    unfold OrderBook.bookIds OrderBook.bookOrders BookSide.sideOrders <;>
    simp only [hupd] <;>
    rw [hl'] <;>
    simp [PriceLevel.replace_front, horders]

lemma bookIds_remove_sub (b : OrderBook) (id : Nat) :
    ∀ i ∈ (b.remove id).2.bookIds, i ∈ b.bookIds := by
  intro i hi
  obtain ⟨x, hx, hxi⟩ := List.mem_map.mp hi
  exact List.mem_map.mpr ⟨x, bookOrders_remove_sub b id x hx, hxi⟩

lemma fillLoop_ids_sub (lside : Side) (p : Decimal) (fuel : Nat) :
    ∀ b res q, ∀ i ∈ (OrderBook.fillLoop lside p fuel b res q).2.2.bookIds,
      i ∈ b.bookIds := by
  induction fuel with
  | zero => intro b res q i hi; exact hi
  | succ n ih =>
      intro b res q i hi
      rcases fillLoop_succ_cases lside p n b res q with heq | ⟨pl, head, hl, hf, hcase⟩
      · rw [heq] at hi; exact hi
      · rcases hcase with ⟨hlt, heq⟩ | ⟨order, hro, heq⟩ | ⟨hro, heq⟩
        · rw [heq] at hi
          have h2 := ih _ _ _ i hi
          rwa [partialFillBook_bookIds b lside p pl head hl hf q] at h2
        · rw [heq] at hi
          exact bookIds_remove_sub b head.id i (ih _ _ _ i hi)
        · rw [heq] at hi
          exact bookIds_remove_sub b head.id i (ih _ _ _ i hi)

lemma fill_ids_sub (b : OrderBook) (lside : Side) (p q : Decimal) :
    ∀ i ∈ (b.fill_at_price_level lside p q).2.bookIds, i ∈ b.bookIds := by
  intro i hi
  unfold OrderBook.fill_at_price_level at hi
  exact fillLoop_ids_sub lside p _ b _ q i hi

lemma marketLoop_ids_sub (side : Side) (fuel : Nat) :
    ∀ b res q, ∀ i ∈ (OrderBook.marketLoop side fuel b res q).2.bookIds,
      i ∈ b.bookIds := by
  induction fuel with
  | zero => intro b res q i hi; exact hi
  | succ n ih =>
      intro b res q i hi
      rw [OrderBook.marketLoop.eq_def] at hi
      simp only [] at hi
      by_cases hc : q ≤ 0 ∨ (b.other_book_side side).num_orders ≤ 0
      · rw [if_pos hc] at hi; exact hi
      · rw [if_neg hc] at hi
        cases side
        · cases hbest : (b.other_book_side Side.Bid).min_price_level with
          | none => simp only [hbest] at hi; exact hi
          | some pr =>
              simp only [hbest] at hi
              exact fill_ids_sub b _ pr.1 q i (ih _ _ _ i hi)
        · cases hbest : (b.other_book_side Side.Ask).max_price_level with
          | none => simp only [hbest] at hi; exact hi
          | some pr =>
              simp only [hbest] at hi
              exact fill_ids_sub b _ pr.1 q i (ih _ _ _ i hi)

/-- The limit-order drain loop: the `resting` field is never set, the
filled quantity and remaining quantity always sum to the input, and the
ambient counters are untouched. -/
lemma limitLoop_facts (side : Side) (price : Decimal) (fuel : Nat) :
    ∀ b res q,
      (OrderBook.limitLoop side price fuel b res q).1.resting = res.resting ∧
      (OrderBook.limitLoop side price fuel b res q).1.quantity_filled +
        (OrderBook.limitLoop side price fuel b res q).2.1 =
        res.quantity_filled + q ∧
      (OrderBook.limitLoop side price fuel b res q).2.2.nextId = b.nextId ∧
      (OrderBook.limitLoop side price fuel b res q).2.2.nextTime = b.nextTime := by
  induction fuel with
  | zero => intro b res q; exact ⟨rfl, rfl, rfl, rfl⟩
  | succ n ih =>
      intro b res q
      rw [OrderBook.limitLoop.eq_def]
      simp only []
      cases side <;>
        [cases hbest : (b.other_book_side Side.Bid).min_price_level;
         cases hbest : (b.other_book_side Side.Ask).max_price_level]
      case none => exact ⟨rfl, rfl, rfl, rfl⟩
      case none => exact ⟨rfl, rfl, rfl, rfl⟩
      all_goals rename_i pr
      all_goals obtain ⟨p, pl⟩ := pr
      all_goals simp only [hbest]
      ·
        by_cases hc : q ≤ 0 ∨ (b.other_book_side Side.Bid).num_orders ≤ 0 ∨
            ¬ OrderBook.crosses Side.Bid price pl.price
        · rw [if_pos hc]
          exact ⟨rfl, rfl, rfl, rfl⟩
        · rw [if_neg hc]
          obtain ⟨h1, h2, h3, h4⟩ := ih
            (b.fill_at_price_level (OrderBook.oppositeSide Side.Bid) p q).2
            { res with
                done := res.done ++
                  (b.fill_at_price_level (OrderBook.oppositeSide Side.Bid) p q).1.done,
                quantity_filled := res.quantity_filled +
                  (b.fill_at_price_level (OrderBook.oppositeSide Side.Bid) p q).1.quantity_filled }
            (q - (b.fill_at_price_level (OrderBook.oppositeSide Side.Bid) p q).1.quantity_filled)
          refine ⟨h1, ?_, ?_, ?_⟩
          · rw [h2]
            dsimp only
            ring
          · exact h3.trans (fill_counters b _ p q).1
          · exact h4.trans (fill_counters b _ p q).2
      ·
        by_cases hc : q ≤ 0 ∨ (b.other_book_side Side.Ask).num_orders ≤ 0 ∨
            ¬ OrderBook.crosses Side.Ask price pl.price
        · rw [if_pos hc]
          exact ⟨rfl, rfl, rfl, rfl⟩
        · rw [if_neg hc]
          obtain ⟨h1, h2, h3, h4⟩ := ih
            (b.fill_at_price_level (OrderBook.oppositeSide Side.Ask) p q).2
            { res with
                done := res.done ++
                  (b.fill_at_price_level (OrderBook.oppositeSide Side.Ask) p q).1.done,
                quantity_filled := res.quantity_filled +
                  (b.fill_at_price_level (OrderBook.oppositeSide Side.Ask) p q).1.quantity_filled }
            (q - (b.fill_at_price_level (OrderBook.oppositeSide Side.Ask) p q).1.quantity_filled)
          refine ⟨h1, ?_, ?_, ?_⟩
          · rw [h2]
            dsimp only
            ring
          · exact h3.trans (fill_counters b _ p q).1
          · exact h4.trans (fill_counters b _ p q).2

lemma lookupId_insertId_self (l : List (Nat × Order)) (k : Nat) (v : Order) :
    lookupId (insertId l k v) k = some v := by
  induction l with
  | nil => simp [insertId, lookupId]
  | cons a t ih =>
      obtain ⟨i, o⟩ := a
      by_cases hik : i = k
      · subst hik
        simp [insertId, lookupId]
      · simp [insertId, lookupId, hik, ih]

lemma get_append_self (b : OrderBook) (o : Order) :
    (b.append o).get o.id = some o := by
  unfold OrderBook.append OrderBook.get
  cases hs : o.side <;> simp [lookupId_insertId_self]

lemma mem_append_sideOf_self (b : OrderBook) (o : Order) :
    o ∈ ((b.append o).sideOf o.side).sideOrders := by
  unfold OrderBook.append
  cases hs : o.side <;>
    simp only [hs, OrderBook.sideOf] <;>
    exact (sideOrders_append_perm _ o).mem_iff.mpr (List.mem_cons_self o _)


lemma lookupId_mem {l : List (Nat × Order)} {k : Nat} {v : Order}
    (h : lookupId l k = some v) : (k, v) ∈ l := by
  induction l with
  | nil => simp [lookupId] at h
  | cons a rest ih =>
      obtain ⟨i, o⟩ := a
      by_cases hik : i = k
      · subst hik
        simp [lookupId] at h
        subst h
        exact List.mem_cons_self _ _
      · simp [lookupId, hik] at h
        exact List.mem_cons_of_mem _ (ih h)

lemma lookupId_none {l : List (Nat × Order)} {k : Nat}
    (h : lookupId l k = none) : ∀ e ∈ l, e.1 ≠ k := by
  induction l with
  | nil => intro e he; cases he
  | cons a rest ih =>
      obtain ⟨i, o⟩ := a
      by_cases hik : i = k
      · subst hik; simp [lookupId] at h
      · simp [lookupId, hik] at h
        intro e he
        rcases List.mem_cons.mp he with he' | he'
        · subst he'; exact hik
        · exact ih h e he'

lemma lookupId_none_of {l : List (Nat × Order)} {k : Nat}
    (h : ∀ e ∈ l, e.1 ≠ k) : lookupId l k = none := by
  induction l with
  | nil => rfl
  | cons a rest ih =>
      obtain ⟨i, o⟩ := a
      have hik : i ≠ k := h (i, o) (List.mem_cons_self _ _)
      simp [lookupId, hik]
      exact ih fun e he => h e (List.mem_cons_of_mem _ he)

lemma eraseId_sub {l : List (Nat × Order)} {k : Nat} :
    ∀ e ∈ eraseId l k, e ∈ l := by
  induction l with
  | nil => intro e he; cases he
  | cons a rest ih =>
      obtain ⟨i, o⟩ := a
      by_cases hik : i = k
      · subst hik
        simp only [eraseId, if_true, ite_true]
        exact fun e he => List.mem_cons_of_mem _ he
      · simp only [eraseId, hik, if_false, ite_false]
        intro e he
        rcases List.mem_cons.mp he with he' | he'
        · subst he'; exact List.mem_cons_self _ _
        · exact List.mem_cons_of_mem _ (ih e he')

lemma eraseId_perm {l : List (Nat × Order)} {k : Nat} {v : Order}
    (hnd : (l.map (fun e => e.1)).Nodup) (hm : (k, v) ∈ l) :
    List.Perm l ((k, v) :: eraseId l k) := by
  induction l with
  | nil => cases hm
  | cons a rest ih =>
      obtain ⟨i, o⟩ := a
      rcases List.mem_cons.mp hm with he | ht
      · cases he
        simp [eraseId]
      · have hik : i ≠ k := by
          intro h
          subst h
          have : i ∈ rest.map (fun e => e.1) := List.mem_map.mpr ⟨(i, v), ht, rfl⟩
          exact (List.nodup_cons.mp (by simpa using hnd)).1 this
        simp only [eraseId, hik, if_false, ite_false]
        refine List.Perm.trans (((ih (List.nodup_cons.mp (by simpa using hnd)).2 ht)).cons (i, o)) ?_
        exact List.Perm.swap (k, v) (i, o) _

lemma insertId_found_perm {l : List (Nat × Order)} {k : Nat} {old : Order}
    (hnd : (l.map (fun e => e.1)).Nodup) (hm : (k, old) ∈ l) (v : Order) :
    List.Perm (insertId l k v) ((k, v) :: eraseId l k) := by
  induction l with
  | nil => cases hm
  | cons a rest ih =>
      obtain ⟨i, o⟩ := a
      rcases List.mem_cons.mp hm with he | ht
      · cases he
        simp [insertId, eraseId]
      · have hik : i ≠ k := by
          intro h
          subst h
          have : i ∈ rest.map (fun e => e.1) := List.mem_map.mpr ⟨(i, old), ht, rfl⟩
          exact (List.nodup_cons.mp (by simpa using hnd)).1 this
        simp only [insertId, eraseId, hik, if_false, ite_false]
        refine List.Perm.trans (((ih (List.nodup_cons.mp (by simpa using hnd)).2 ht)).cons (i, o)) ?_
        exact List.Perm.swap (k, v) (i, o) _

lemma insertId_notfound {l : List (Nat × Order)} {k : Nat}
    (h : ∀ e ∈ l, e.1 ≠ k) (v : Order) :
    insertId l k v = l ++ [(k, v)] := by
  induction l with
  | nil => rfl
  | cons a rest ih =>
      obtain ⟨i, o⟩ := a
      have hik : i ≠ k := h (i, o) (List.mem_cons_self _ _)
      simp only [insertId, hik, if_false, ite_false, List.cons_append, List.cons.injEq, true_and]
      exact ih fun e he => h e (List.mem_cons_of_mem _ he)

lemma flatten_middle_perm {l1 l2 : List (Decimal × PriceLevel)} {k : Decimal}
    (pl : PriceLevel) :
    List.Perm (((l1 ++ (k, pl) :: l2).map (fun e => e.2.orders)).flatten)
      (pl.orders ++ ((l1 ++ l2).map (fun e => e.2.orders)).flatten) := by
  simp only [List.map_append, List.map_cons, List.flatten_append, List.flatten_cons]
  rw [← List.append_assoc, ← List.append_assoc]
  exact (List.perm_append_comm).append_right _

/-- Removing an exact member copy from a well-shaped side returns it,
removes exactly one occurrence (up to permutation), and preserves the
shape. -/
lemma side_remove_mem (s : BookSide) (sd : Side) (o : Order)
    (hshape : sideShape s sd) (hm : o ∈ s.sideOrders) :
    (s.remove o).1 = some o ∧
    List.Perm s.sideOrders (o :: ((s.remove o).2).sideOrders) ∧
    sideShape ((s.remove o).2) sd := by
  obtain ⟨hkeys, hlev⟩ := hshape
  obtain ⟨e0, he0, ho⟩ : ∃ e ∈ s.levels, o ∈ e.2.orders := by
    obtain ⟨os, hos, ho⟩ := List.mem_flatten.mp hm
    obtain ⟨e, he, heq⟩ := List.mem_map.mp hos
    exact ⟨e, he, heq ▸ ho⟩
  obtain ⟨k0, pl0⟩ := e0
  dsimp only at ho
  have hpl0 := hlev (k0, pl0) he0
  dsimp only at hpl0
  have hkey : o.price = k0 := (hpl0.2 o ho).1
  have hlook : lookupKey s.levels o.price = some pl0 := by
    rw [hkey]; exact lookupKey_of_mem hkeys he0
  obtain ⟨l1, l2, hl', hne, hupd⟩ := lookupKey_decomp hlook
  have hrem := PriceLevel.remove_spec pl0 o
  have hro := hrem.2.2.1 ho
  have hplperm : List.Perm pl0.orders (o :: pl0.orders.erase o) := List.perm_cons_erase ho
  have hsoS : List.Perm s.sideOrders
      (pl0.orders ++ ((l1 ++ l2).map (fun e => e.2.orders)).flatten) := by
    unfold BookSide.sideOrders
    rw [hl']
    exact flatten_middle_perm pl0
  unfold BookSide.remove
  rw [hlook]
  by_cases hempty : (pl0.remove o).2.len ≤ 0
  · simp only [hempty, if_true, ite_true]
    have herase : pl0.orders.erase o = [] := by
      rw [PriceLevel.len, hro.2] at hempty
      exact List.length_eq_zero.mp (Nat.le_zero.mp hempty)
    have hlevels : eraseKey (updateKey s.levels o.price (pl0.remove o).2) o.price = l1 ++ l2 := by
      rw [hupd]
      exact eraseKey_append l1 l2 o.price _ hne
    refine ⟨hro.1, ?_, ?_⟩
    · refine hsoS.trans ?_
      have : List.Perm (pl0.orders ++ ((l1 ++ l2).map (fun e => e.2.orders)).flatten)
          ((o :: pl0.orders.erase o) ++ ((l1 ++ l2).map (fun e => e.2.orders)).flatten) :=
        hplperm.append_right _
      refine this.trans ?_
      rw [herase]
      show List.Perm (o :: ((l1 ++ l2).map (fun e => e.2.orders)).flatten) _
      refine List.Perm.cons o ?_
      unfold BookSide.sideOrders
      rw [hlevels]
    · constructor
      · dsimp only
        rw [hlevels]
        have hsub : List.Sublist (l1 ++ l2) s.levels := by
          rw [hl']
          exact (List.sublist_cons_self (o.price, pl0) l2).append_left l1
        exact (hsub.map (fun e => e.1)).nodup hkeys
      · intro e he
        dsimp only at he
        rw [hlevels] at he
        refine hlev e ?_
        rw [hl']
        rcases List.mem_append.mp he with h' | h'
        · exact List.mem_append_left _ h'
        · exact List.mem_append_right _ (List.mem_cons_of_mem _ h')
  · simp only [hempty, if_false, ite_false]
    refine ⟨hro.1, ?_, ?_⟩
    · refine hsoS.trans ?_
      refine (hplperm.append_right _).trans ?_
      show List.Perm (o :: (pl0.orders.erase o ++ _)) _
      refine List.Perm.cons o ?_
      unfold BookSide.sideOrders
      rw [hupd]
      refine List.Perm.symm ?_
      refine (flatten_middle_perm (pl0.remove o).2).trans ?_
      rw [hro.2]
    · constructor
      · dsimp only
        rw [hupd]
        have : ((l1 ++ (o.price, (pl0.remove o).2) :: l2).map (fun e => e.1)) =
            (s.levels.map (fun e => e.1)) := by
          rw [hl']; simp
        rw [this]
        exact hkeys
      · intro e he
        dsimp only at he
        rw [hupd] at he
        rcases List.mem_append.mp he with h' | h'
        · exact hlev e (by rw [hl']; exact List.mem_append_left _ h')
        · rcases List.mem_cons.mp h' with h'' | h''
          · subst h''
            refine ⟨by rw [hrem.1]; exact hkey ▸ hpl0.1, ?_⟩
            intro o' ho'
            rw [hro.2] at ho'
            have := hpl0.2 o' (List.erase_subset _ _ ho')
            exact ⟨hkey ▸ this.1, this.2⟩
          · exact hlev e (by rw [hl']; exact List.mem_append_right _ (List.mem_cons_of_mem _ h''))

lemma side_append_shape (s : BookSide) (sd : Side) (o : Order)
    (hshape : sideShape s sd) (hside : o.side = sd) :
    sideShape (s.append o) sd := by
  obtain ⟨hkeys, hlev⟩ := hshape
  unfold BookSide.append
  split
  · rename_i pl hl
    obtain ⟨l1, l2, hl', hne, hupd⟩ := lookupKey_decomp hl
    have hple := hlev (o.price, pl) (lookupKey_mem hl)
    dsimp only at hple
    rw [hupd]
    constructor
    · dsimp only
      have : ((l1 ++ (o.price, pl.append o) :: l2).map (fun e => e.1)) =
          (s.levels.map (fun e => e.1)) := by
        rw [hl']; simp
      rw [this]
      exact hkeys
    · intro e he
      dsimp only at he
      rcases List.mem_append.mp he with h' | h'
      · exact hlev e (by rw [hl']; exact List.mem_append_left _ h')
      · rcases List.mem_cons.mp h' with h'' | h''
        · subst h''
          refine ⟨by simpa [PriceLevel.append] using hple.1, ?_⟩
          intro o' ho'
          simp only [PriceLevel.append, List.mem_append, List.mem_singleton] at ho'
          rcases ho' with ho' | ho'
          · exact hple.2 o' ho'
          · subst ho'; exact ⟨rfl, hside⟩
        · exact hlev e (by rw [hl']; exact List.mem_append_right _ (List.mem_cons_of_mem _ h''))
  · rename_i hl
    have hperm := insertSorted_perm s.levels o.price ((PriceLevel.new o.price).append o)
    constructor
    · dsimp only
      refine ((hperm.map (fun e => e.1)).nodup_iff).mpr ?_
      refine List.nodup_cons.mpr ⟨?_, hkeys⟩
      intro hk
      obtain ⟨e, he, hek⟩ := List.mem_map.mp hk
      exact lookupKey_none hl e he hek
    · intro e he
      dsimp only at he
      rcases List.mem_cons.mp (hperm.mem_iff.mp he) with h' | h'
      · subst h'
        refine ⟨by simp [PriceLevel.append, PriceLevel.new], ?_⟩
        intro o' ho'
        simp only [PriceLevel.append, PriceLevel.new, List.nil_append,
          List.mem_singleton] at ho'
        subst ho'
        exact ⟨rfl, hside⟩
      · exact hlev e h'

/-- The in-place rewrite of a level's front order (the partial-fill state
update), seen at the side level: exactly the head is replaced, and the
shape is preserved when the new order carries the head's price and side. -/
lemma side_partial_update (s : BookSide) (sd : Side) (p : Decimal)
    (pl : PriceLevel) (head : Order) (t : List Order) (o' : Order)
    (hshape : sideShape s sd)
    (hl : lookupKey s.levels p = some pl)
    (ht : pl.orders = head :: t)
    (ho'p : o'.price = head.price) (ho's : o'.side = head.side) :
    ∃ R, List.Perm s.sideOrders (head :: R) ∧
      List.Perm (BookSide.sideOrders
          { s with levels := updateKey s.levels p (pl.replace_front o') })
        (o' :: R) ∧
      sideShape { s with levels := updateKey s.levels p (pl.replace_front o') } sd := by
  obtain ⟨hkeys, hlev⟩ := hshape
  obtain ⟨l1, l2, hl', hne, hupd⟩ := lookupKey_decomp hl
  have hple := hlev (p, pl) (lookupKey_mem hl)
  dsimp only at hple
  have hhead : head.price = p ∧ head.side = sd :=
    hple.2 head (by rw [ht]; exact List.mem_cons_self _ _)
  have hrf : (pl.replace_front o').orders = o' :: t := by
    unfold PriceLevel.replace_front
    rw [ht]
  refine ⟨t ++ ((l1 ++ l2).map (fun e => e.2.orders)).flatten, ?_, ?_, ?_⟩
  · unfold BookSide.sideOrders
    rw [hl']
    refine (flatten_middle_perm pl).trans ?_
    rw [ht]
    exact List.Perm.refl _
  · unfold BookSide.sideOrders
    dsimp only
    rw [hupd]
    refine (flatten_middle_perm (pl.replace_front o')).trans ?_
    rw [hrf]
    exact List.Perm.refl _
  · constructor
    · dsimp only
      rw [hupd]
      have : ((l1 ++ (p, pl.replace_front o') :: l2).map (fun e => e.1)) =
          (s.levels.map (fun e => e.1)) := by
        rw [hl']; simp
      rw [this]
      exact hkeys
    · intro e he
      dsimp only at he
      rw [hupd] at he
      rcases List.mem_append.mp he with h' | h'
      · exact hlev e (by rw [hl']; exact List.mem_append_left _ h')
      · rcases List.mem_cons.mp h' with h'' | h''
        · subst h''
          constructor
          · show (pl.replace_front o').price = p
            unfold PriceLevel.replace_front
            rw [ht]
            exact hple.1
          · intro o2 ho2
            dsimp only at ho2
            rw [hrf] at ho2
            rcases List.mem_cons.mp ho2 with h3 | h3
            · subst h3
              exact ⟨ho'p.trans hhead.1, ho's.trans hhead.2⟩
            · exact hple.2 o2 (by rw [ht]; exact List.mem_cons_of_mem _ h3)
        · exact hlev e (by rw [hl']; exact List.mem_append_right _ (List.mem_cons_of_mem _ h''))

lemma wf_sideShape {b : OrderBook} (h : OrderBook.wf b) (lside : Side) :
    sideShape (b.sideOf lside) lside := by
  cases lside
  · exact h.2.1
  · exact h.1

lemma shapes_of_sides {b : OrderBook} (lside : Side)
    (h1 : sideShape (b.sideOf lside) lside)
    (h2 : sideShape (b.sideOf (OrderBook.oppositeSide lside))
      (OrderBook.oppositeSide lside)) :
    sideShape b.asks Side.Ask ∧ sideShape b.bids Side.Bid := by
  cases lside
  · exact ⟨h2, h1⟩
  · exact ⟨h1, h2⟩

lemma bookOrders_perm_sides (b : OrderBook) (lside : Side) :
    List.Perm b.bookOrders
      ((b.sideOf lside).sideOrders ++
        (b.sideOf (OrderBook.oppositeSide lside)).sideOrders) := by
  cases lside
  · exact List.perm_append_comm
  · exact List.Perm.refl _

lemma wf_keysNodup {b : OrderBook} (h : OrderBook.wf b) :
    (b.orders.map (fun e => e.1)).Nodup := by
  obtain ⟨_, _, hperm, hnd, _⟩ := h
  refine ((hperm.map (fun e => e.1)).nodup_iff).mpr ?_
  simpa [OrderBook.bookIds, List.map_map, Function.comp] using hnd

lemma wf_mem_side {b : OrderBook} (h : OrderBook.wf b) {o : Order}
    (ho : o ∈ b.bookOrders) : o ∈ (b.sideOf o.side).sideOrders := by
  obtain ⟨hsa, hsb, _, _, _⟩ := h
  rcases List.mem_append.mp ho with h' | h'
  · obtain ⟨os, hos, ho2⟩ := List.mem_flatten.mp h'
    obtain ⟨e, he, heq⟩ := List.mem_map.mp hos
    have := (hsa.2 e he).2 o (heq ▸ ho2)
    rw [this.2]
    exact h'
  · obtain ⟨os, hos, ho2⟩ := List.mem_flatten.mp h'
    obtain ⟨e, he, heq⟩ := List.mem_map.mp hos
    have := (hsb.2 e he).2 o (heq ▸ ho2)
    rw [this.2]
    exact h'

lemma remove_found_fields (b : OrderBook) (id : Nat) (o : Order)
    (hl : lookupId b.orders id = some o) :
    (b.remove id).2.orders = eraseId b.orders id ∧
    ((b.remove id).2.sideOf o.side) = ((b.sideOf o.side).remove o).2 ∧
    ((b.remove id).2.sideOf (OrderBook.oppositeSide o.side)) =
      b.sideOf (OrderBook.oppositeSide o.side) ∧
    (b.remove id).2.nextId = b.nextId ∧
    (b.remove id).2.nextTime = b.nextTime := by
  unfold OrderBook.remove
  simp only [hl]
  cases hs : o.side <;>
    simp [hs, OrderBook.sideOf, OrderBook.setSide, OrderBook.oppositeSide]

/-- `OrderBook::remove` preserves the global-index invariant, for every id. -/
lemma wf_remove (b : OrderBook) (id : Nat) (h : OrderBook.wf b) :
    OrderBook.wf (b.remove id).2 := by
  cases hl : lookupId b.orders id with
  | none =>
      unfold OrderBook.remove
      simp only [hl]
      exact h
  | some o =>
      obtain ⟨hor, hsl, hso, hni, hnt⟩ := remove_found_fields b id o hl
      have hmem : (id, o) ∈ b.orders := lookupId_mem hl
      have hmemδ := h.2.2.1.mem_iff.mp hmem
      obtain ⟨o', ho', heq⟩ := List.mem_map.mp hmemδ
      have ho'o : o' = o := congrArg Prod.snd heq
      subst ho'o
      have hido : o'.id = id := congrArg Prod.fst heq
      have hsidemem : o' ∈ (b.sideOf o'.side).sideOrders := wf_mem_side h ho'
      obtain ⟨hsome, hpermS, hshape'⟩ :=
        side_remove_mem (b.sideOf o'.side) o'.side o' (wf_sideShape h o'.side) hsidemem
      -- book orders of the result, up to permutation
      have hbo : List.Perm b.bookOrders (o' :: (b.remove id).2.bookOrders) := by
        refine (bookOrders_perm_sides b o'.side).trans ?_
        refine (hpermS.append_right _).trans ?_
        show List.Perm (o' :: _) _
        refine List.Perm.cons o' ?_
        refine List.Perm.symm ?_
        refine (bookOrders_perm_sides (b.remove id).2 o'.side).trans ?_
        rw [hsl, hso]
        exact List.Perm.refl _
      have hpermtail : List.Perm (eraseId b.orders id)
          ((b.remove id).2.bookOrders.map (fun x => (x.id, x))) := by
        have P1 : List.Perm b.orders ((id, o') :: eraseId b.orders id) :=
          eraseId_perm (wf_keysNodup h) hmem
        have P2 : List.Perm b.orders
            ((id, o') :: (b.remove id).2.bookOrders.map (fun x => (x.id, x))) := by
          refine h.2.2.1.trans ?_
          refine (hbo.map (fun x => (x.id, x))).trans ?_
          rw [List.map_cons, hido]
        exact (P1.symm.trans P2).cons_inv
      refine ⟨?_, ?_, ?_, ?_, ?_⟩
      · exact (shapes_of_sides o'.side (hsl ▸ hshape')
          (hso ▸ wf_sideShape h (OrderBook.oppositeSide o'.side))).1
      · exact (shapes_of_sides o'.side (hsl ▸ hshape')
          (hso ▸ wf_sideShape h (OrderBook.oppositeSide o'.side))).2
      · rw [hor]
        exact hpermtail
      · have : List.Perm b.bookIds (o'.id :: (b.remove id).2.bookIds) := by
          unfold OrderBook.bookIds
          simpa using hbo.map (fun x => x.id)
        exact (List.nodup_cons.mp (this.nodup_iff.mp h.2.2.2.1)).2
      · rw [hor, hni]
        intro e he
        exact h.2.2.2.2 e (eraseId_sub e he)

lemma partialFillBook_fields (b : OrderBook) (lside : Side) (p : Decimal)
    (pl : PriceLevel) (head : Order) (q : Decimal) (hside : head.side = lside) :
    (OrderBook.partialFillBook b lside p pl head q).orders =
      insertId b.orders head.id { head with quantity := head.quantity - q } ∧
    ((OrderBook.partialFillBook b lside p pl head q).sideOf lside).levels =
      updateKey (b.sideOf lside).levels p
        (pl.replace_front { head with quantity := head.quantity - q }) ∧
    ((OrderBook.partialFillBook b lside p pl head q).sideOf
        (OrderBook.oppositeSide lside)) =
      b.sideOf (OrderBook.oppositeSide lside) := by
  subst hside
  unfold OrderBook.partialFillBook
  cases hs : head.side <;>
    simp [hs, OrderBook.sideOf, OrderBook.setSide, OrderBook.oppositeSide]

/-- The partial-fill state update preserves the global-index invariant:
both book copies of the front order are replaced by the same reduced
order. -/
lemma wf_partialFillBook (b : OrderBook) (lside : Side) (p : Decimal)
    (pl : PriceLevel) (head : Order) (q : Decimal) (h : OrderBook.wf b)
    (hl : lookupKey (b.sideOf lside).levels p = some pl)
    (hf : pl.front = some head) :
    OrderBook.wf (OrderBook.partialFillBook b lside p pl head q) := by
  obtain ⟨t, horders⟩ := front_cons hf
  have hshape := wf_sideShape h lside
  have hheadmem : head ∈ pl.orders := by
    rw [horders]; exact List.mem_cons_self _ _
  have hple := hshape.2 (p, pl) (lookupKey_mem hl)
  have hhead := hple.2 head hheadmem
  have hside : head.side = lside := hhead.2
  obtain ⟨hor, hsl, hso⟩ := partialFillBook_fields b lside p pl head q hside
  have hcnt := OrderBook.partialFillBook_counters b lside p pl head q
  set o' : Order := { head with quantity := head.quantity - q } with ho'
  obtain ⟨R, permS, permS', shape'⟩ :=
    side_partial_update (b.sideOf lside) lside p pl head t o' hshape hl horders rfl rfl
  -- the updated side of the new book has the same levels as the record used
  -- in side_partial_update, so its shape and orders agree definitionally
  have hshape2 : sideShape ((OrderBook.partialFillBook b lside p pl head q).sideOf lside) lside := by
    refine ⟨?_, ?_⟩
    · rw [hsl]
      exact shape'.1
    · intro e he
      refine shape'.2 e ?_
      rw [hsl] at he
      exact he
  have permS2 : List.Perm
      (((OrderBook.partialFillBook b lside p pl head q).sideOf lside).sideOrders)
      (o' :: R) := by
    refine List.Perm.trans ?_ permS'
    unfold BookSide.sideOrders
    rw [hsl]
  -- head is in the book and indexed
  have hheadbook : head ∈ b.bookOrders := by
    have : head ∈ (b.sideOf lside).sideOrders :=
      mem_sideOrders_of_entry (lookupKey_mem hl) hheadmem
    refine (bookOrders_perm_sides b lside).mem_iff.mpr ?_
    exact List.mem_append_left _ this
  have hheadidx : (head.id, head) ∈ b.orders :=
    h.2.2.1.mem_iff.mpr (List.mem_map.mpr ⟨head, hheadbook, rfl⟩)
  -- book order perms
  have hboOld : List.Perm b.bookOrders
      (head :: (R ++ (b.sideOf (OrderBook.oppositeSide lside)).sideOrders)) := by
    refine (bookOrders_perm_sides b lside).trans ?_
    exact (permS.append_right _).trans (List.Perm.refl _)
  have hboNew : List.Perm (OrderBook.partialFillBook b lside p pl head q).bookOrders
      (o' :: (R ++ (b.sideOf (OrderBook.oppositeSide lside)).sideOrders)) := by
    refine (bookOrders_perm_sides _ lside).trans ?_
    rw [hso]
    exact (permS2.append_right _).trans (List.Perm.refl _)
  refine ⟨?_, ?_, ?_, ?_, ?_⟩
  · exact (shapes_of_sides lside hshape2
      (hso ▸ wf_sideShape h (OrderBook.oppositeSide lside))).1
  · exact (shapes_of_sides lside hshape2
      (hso ▸ wf_sideShape h (OrderBook.oppositeSide lside))).2
  · rw [hor]
    have P1 : List.Perm (insertId b.orders head.id o')
        ((head.id, o') :: eraseId b.orders head.id) :=
      insertId_found_perm (wf_keysNodup h) hheadidx o'
    have P2 : List.Perm b.orders ((head.id, head) :: eraseId b.orders head.id) :=
      eraseId_perm (wf_keysNodup h) hheadidx
    have P3 : List.Perm b.orders
        ((head.id, head) ::
          (R ++ (b.sideOf (OrderBook.oppositeSide lside)).sideOrders).map
            (fun x => (x.id, x))) := by
      refine h.2.2.1.trans ?_
      simpa using hboOld.map (fun x => (x.id, x))
    have P4 := (P2.symm.trans P3).cons_inv
    refine P1.trans ?_
    refine List.Perm.trans ?_ (hboNew.map (fun x => (x.id, x))).symm
    rw [List.map_cons]
    exact List.Perm.cons _ P4
  · have hidsOld : List.Perm b.bookIds
        (head.id :: (R ++ (b.sideOf (OrderBook.oppositeSide lside)).sideOrders).map
          (fun x => x.id)) := by
      unfold OrderBook.bookIds
      simpa using hboOld.map (fun x => x.id)
    have hidsNew : List.Perm (OrderBook.partialFillBook b lside p pl head q).bookIds
        (head.id :: (R ++ (b.sideOf (OrderBook.oppositeSide lside)).sideOrders).map
          (fun x => x.id)) := by
      unfold OrderBook.bookIds
      simpa using hboNew.map (fun x => x.id)
    exact hidsNew.nodup_iff.mpr (hidsOld.nodup_iff.mp h.2.2.2.1)
  · rw [hor, hcnt.1]
    intro e he
    have := (insertId_found_perm (wf_keysNodup h) hheadidx o').mem_iff.mp he
    rcases List.mem_cons.mp this with he' | he'
    · subst he'
      exact h.2.2.2.2 (head.id, head) hheadidx
    · exact h.2.2.2.2 e (eraseId_sub e he')

/-- `OrderBook::append` of an order with a fresh id preserves the
global-index invariant. -/
lemma wf_append (b : OrderBook) (o : Order) (h : OrderBook.wf b)
    (hid : o.id < b.nextId) (hfresh : b.get o.id = none) :
    OrderBook.wf (b.append o) := by
  have hnotin : ∀ e ∈ b.orders, e.1 ≠ o.id := lookupId_none hfresh
  have hor : (b.append o).orders = b.orders ++ [(o.id, o)] := by
    unfold OrderBook.append
    cases hs : o.side <;> simp [insertId_notfound hnotin]
  have hsl : ((b.append o).sideOf o.side) = (b.sideOf o.side).append o := by
    unfold OrderBook.append
    cases hs : o.side <;> simp [hs, OrderBook.sideOf]
  have hso : ((b.append o).sideOf (OrderBook.oppositeSide o.side)) =
      b.sideOf (OrderBook.oppositeSide o.side) := by
    unfold OrderBook.append
    cases hs : o.side <;> simp [hs, OrderBook.sideOf, OrderBook.oppositeSide]
  have hcnt : (b.append o).nextId = b.nextId := by
    unfold OrderBook.append
    cases hs : o.side <;> simp
  have hbo : List.Perm (b.append o).bookOrders (o :: b.bookOrders) := by
    refine (bookOrders_perm_sides _ o.side).trans ?_
    rw [hsl, hso]
    refine ((sideOrders_append_perm _ o).append_right _).trans ?_
    exact List.Perm.cons o ((bookOrders_perm_sides b o.side).symm)
  have hidnotin : o.id ∉ b.bookIds := by
    intro hin
    obtain ⟨x, hx, hxid⟩ := List.mem_map.mp hin
    have : (x.id, x) ∈ b.orders :=
      h.2.2.1.mem_iff.mpr (List.mem_map.mpr ⟨x, hx, rfl⟩)
    exact hnotin (x.id, x) this hxid
  refine ⟨?_, ?_, ?_, ?_, ?_⟩
  · exact (shapes_of_sides o.side
      (hsl ▸ side_append_shape (b.sideOf o.side) o.side o (wf_sideShape h o.side) rfl)
      (hso ▸ wf_sideShape h (OrderBook.oppositeSide o.side))).1
  · exact (shapes_of_sides o.side
      (hsl ▸ side_append_shape (b.sideOf o.side) o.side o (wf_sideShape h o.side) rfl)
      (hso ▸ wf_sideShape h (OrderBook.oppositeSide o.side))).2
  · rw [hor]
    have P1 : List.Perm (b.orders ++ [(o.id, o)]) ((o.id, o) :: b.orders) := by
      have h2 := @List.perm_middle _ (o.id, o) b.orders []
      simp only [List.append_nil] at h2
      exact h2
    refine P1.trans ?_
    refine List.Perm.trans ?_ (hbo.map (fun x => (x.id, x))).symm
    rw [List.map_cons]
    exact List.Perm.cons _ h.2.2.1
  · have hids : List.Perm (b.append o).bookIds (o.id :: b.bookIds) := by
      unfold OrderBook.bookIds
      simpa using hbo.map (fun x => x.id)
    exact hids.nodup_iff.mpr (List.nodup_cons.mpr ⟨hidnotin, h.2.2.2.1⟩)
  · rw [hor, hcnt]
    intro e he
    rcases List.mem_append.mp he with he' | he'
    · exact h.2.2.2.2 e he'
    · rcases List.mem_singleton.mp he' with rfl
      exact hid

lemma wf_fillLoop (lside : Side) (p : Decimal) (fuel : Nat) :
    ∀ b res q, OrderBook.wf b →
      OrderBook.wf (OrderBook.fillLoop lside p fuel b res q).2.2 := by
  induction fuel with
  | zero => intro b res q h; exact h
  | succ n ih =>
      intro b res q h
      rcases fillLoop_succ_cases lside p n b res q with heq | ⟨pl, head, hl, hf, hcase⟩
      · rw [heq]; exact h
      · rcases hcase with ⟨hlt, heq⟩ | ⟨order, hro, heq⟩ | ⟨hro, heq⟩
        · rw [heq]
          exact ih _ _ _ (wf_partialFillBook b lside p pl head q h hl hf)
        · rw [heq]
          exact ih _ _ _ (wf_remove b head.id h)
        · rw [heq]
          exact ih _ _ _ (wf_remove b head.id h)

lemma wf_fill (b : OrderBook) (lside : Side) (p q : Decimal)
    (h : OrderBook.wf b) : OrderBook.wf (b.fill_at_price_level lside p q).2 := by
  unfold OrderBook.fill_at_price_level
  exact wf_fillLoop lside p _ b _ q h

lemma wf_marketLoop (side : Side) (fuel : Nat) :
    ∀ b res q, OrderBook.wf b →
      OrderBook.wf (OrderBook.marketLoop side fuel b res q).2 := by
  induction fuel with
  | zero => intro b res q h; exact h
  | succ n ih =>
      intro b res q h
      rw [OrderBook.marketLoop.eq_def]
      simp only []
      by_cases hc : q ≤ 0 ∨ (b.other_book_side side).num_orders ≤ 0
      · rw [if_pos hc]; exact h
      · rw [if_neg hc]
        cases side
        · cases hbest : (b.other_book_side Side.Bid).min_price_level with
          | none => simp only [hbest]; exact h
          | some pr =>
              simp only [hbest]
              exact ih _ _ _ (wf_fill b _ pr.1 q h)
        · cases hbest : (b.other_book_side Side.Ask).max_price_level with
          | none => simp only [hbest]; exact h
          | some pr =>
              simp only [hbest]
              exact ih _ _ _ (wf_fill b _ pr.1 q h)

lemma wf_limitLoop (side : Side) (price : Decimal) (fuel : Nat) :
    ∀ b res q, OrderBook.wf b →
      OrderBook.wf (OrderBook.limitLoop side price fuel b res q).2.2 := by
  induction fuel with
  | zero => intro b res q h; exact h
  | succ n ih =>
      intro b res q h
      rw [OrderBook.limitLoop.eq_def]
      simp only []
      cases side <;>
        [cases hbest : (b.other_book_side Side.Bid).min_price_level;
         cases hbest : (b.other_book_side Side.Ask).max_price_level]
      case none => exact h
      case none => exact h
      all_goals rename_i pr
      all_goals obtain ⟨p, pl⟩ := pr
      all_goals simp only [hbest]
      · by_cases hc : q ≤ 0 ∨ (b.other_book_side Side.Bid).num_orders ≤ 0 ∨
            ¬ OrderBook.crosses Side.Bid price pl.price
        · rw [if_pos hc]; exact h
        · rw [if_neg hc]
          exact ih _ _ _ (wf_fill b _ p q h)
      · by_cases hc : q ≤ 0 ∨ (b.other_book_side Side.Ask).num_orders ≤ 0 ∨
            ¬ OrderBook.crosses Side.Ask price pl.price
        · rw [if_pos hc]; exact h
        · rw [if_neg hc]
          exact ih _ _ _ (wf_fill b _ p q h)

lemma wf_bump (b : OrderBook) (h : OrderBook.wf b) :
    OrderBook.wf { b with nextId := b.nextId + 1, nextTime := b.nextTime + 1 } := by
  obtain ⟨h1, h2, h3, h4, h5⟩ := h
  exact ⟨h1, h2, h3, h4, fun e he => Nat.lt_succ_of_lt (h5 e he)⟩

lemma wf_submit_market (b : OrderBook) (s : Side) (q : Decimal)
    (h : OrderBook.wf b) : OrderBook.wf (b.submit_market_order s q).2 := by
  unfold OrderBook.submit_market_order
  exact wf_marketLoop s _ b _ q h

lemma wf_submit_limit (b : OrderBook) (s : Side) (q p : Decimal)
    (h : OrderBook.wf b) : OrderBook.wf (b.submit_limit_order s q p).2 := by
  simp only [OrderBook.submit_limit_order]
  have hwfL := wf_limitLoop s p ((b.other_book_side s).num_orders + 1) b ⟨[], none, 0⟩ q h
  by_cases hq0 : (OrderBook.limitLoop s p ((b.other_book_side s).num_orders + 1) b
      ⟨[], none, 0⟩ q).2.1 > 0
  · simp only [hq0, if_true, ite_true]
    refine wf_append _ _ (wf_bump _ hwfL) (Nat.lt_succ_self _) ?_
    apply lookupId_none_of
    intro e he hek
    have hlt := hwfL.2.2.2.2 e he
    rw [hek] at hlt
    exact absurd hlt (lt_irrefl _)
  · simp only [hq0, if_false, ite_false]
    exact hwfL

/-! ## Claim theorems -/

/-- **C1** Price-time priority: from an empty book, append asks
(price 50, qty 10), then (75, 10) as order A (id 1), then (75, 10) as order
B (id 2, submitted after A); a market bid of quantity 25 returns exactly a
Full fill of 10 at 50, a Full fill of 10 at 75 against A, and a Partial
fill of 5 at 75 against B, in this order, with `quantity_filled = 25`. -/
theorem claim_C1_price_time_priority :
    (bookC1.submit_market_order Side.Bid 25).1 =
      { done := [{ order_id := 0, status := FillStatus.Full, price := 50, quantity := 10 },
                 { order_id := 1, status := FillStatus.Full, price := 75, quantity := 10 },
                 { order_id := 2, status := FillStatus.Partial, price := 75, quantity := 5 }],
        resting := none,
        quantity_filled := 25 } := by
  decide

/-- **C4** The limit-order crossing boundary is inclusive: against a book
holding the single ask (price 50, qty 5), a limit bid (qty 5, price 50)
fully fills — `quantity_filled = 5`, no resting order, book emptied — while
a limit bid (qty 5, price 49) trades nothing and rests as a bid of
quantity 5 at price 49. -/
theorem claim_C4_limit_crossing_boundary :
    ((bookAsk50.submit_limit_order Side.Bid 5 50).1.quantity_filled = 5 ∧
     (bookAsk50.submit_limit_order Side.Bid 5 50).1.resting = none ∧
     (bookAsk50.submit_limit_order Side.Bid 5 50).2.bookOrders = []) ∧
    ((bookAsk50.submit_limit_order Side.Bid 5 49).1.quantity_filled = 0 ∧
     (bookAsk50.submit_limit_order Side.Bid 5 49).1.done = [] ∧
     (bookAsk50.submit_limit_order Side.Bid 5 49).1.resting =
       some { id := 1, side := Side.Bid, timestamp := 1, price := 49, quantity := 5 } ∧
     (bookAsk50.submit_limit_order Side.Bid 5 49).2.bids.sideOrders =
       [{ id := 1, side := Side.Bid, timestamp := 1, price := 49, quantity := 5 }] ∧
     (bookAsk50.submit_limit_order Side.Bid 5 49).2.asks = bookAsk50.asks) := by
  decide

/-- **C8** (the claim describes intended behaviour the code does not
implement): zero and negative quantities are *not* rejected — there is no
invalid-input channel in `OrderResult` at all — and both entry points return
an ordinary empty result, leaving the book unchanged.  Evaluated at the
failing inputs `submit_market_order(Bid, 0)` and
`submit_limit_order(Bid, -5, 10)` against a book with resting liquidity. -/
theorem claim_C8_no_rejection_of_nonpositive_quantity :
    ((bookAsk50.submit_market_order Side.Bid 0).1 =
        { done := [], resting := none, quantity_filled := 0 } ∧
     (bookAsk50.submit_market_order Side.Bid 0).2 = bookAsk50) ∧
    ((bookAsk50.submit_limit_order Side.Bid (-5) 10).1 =
        { done := [], resting := none, quantity_filled := 0 } ∧
     (bookAsk50.submit_limit_order Side.Bid (-5) 10).2 = bookAsk50) := by
  decide

/-- **C10** `PriceLevel::replace_front` on an empty level (`len = 0`) leaves
the queue empty yet still adds the argument's quantity to `volume`, so this
public operation can make `volume` differ from the sum of member order
quantities. -/
theorem claim_C10_replace_front_empty_level (pl : PriceLevel) (o : Order)
    (h : pl.len = 0) :
    (pl.replace_front o).orders = [] ∧
    (pl.replace_front o).volume = pl.volume + o.quantity := by
  obtain ⟨v, p, os⟩ := pl
  have hos : os = [] := by
    simpa [PriceLevel.len] using h
  subst hos
  simp [PriceLevel.replace_front]

/-- Witness for C10 at the concrete empty level of price 10 and an order of
quantity 5. -/
theorem claim_C10_witness :
    (PriceLevel.new 10).len = 0 ∧
    ((PriceLevel.new 10).replace_front ⟨1, Side.Ask, 0, 10, 5⟩).orders = [] ∧
    ((PriceLevel.new 10).replace_front ⟨1, Side.Ask, 0, 10, 5⟩).volume =
      (PriceLevel.new 10).volume + (Order.mk 1 Side.Ask 0 10 5).quantity := by
  refine ⟨by decide, ?_⟩
  exact claim_C10_replace_front_empty_level (PriceLevel.new 10) ⟨1, Side.Ask, 0, 10, 5⟩ (by decide)

/-- **C2 (counterexample)** With arbitrary `remove` arguments the counters
desynchronize: after appending one ask (qty 5, price 10) and removing a
*non-member* order at the same price (different id, qty 3), `num_orders` is
0 while the levels still hold one order, refuting the claimed invariant. -/
theorem claim_C2_counterexample :
    sideC2.num_orders ≠ sideC2.sumLens ∧
    sideC2.num_orders = 0 ∧ sideC2.sumLens = 1 := by
  decide

/-- **C2 (amended)** The counting invariant — `num_orders` = sum of level
lengths, `volume` = sum of level volumes, `depth` = number of distinct
non-empty levels = size of both indices — holds after every prefix of a
sequence of `BookSide` operations, provided each `remove` is invoked with an
exact copy of an order then resting on the side (as every removal performed
by `OrderBook` itself is); `append` arguments stay arbitrary.  With fully
arbitrary `remove` arguments the invariant fails
(`claim_C2_counterexample`). -/
theorem claim_C2_side_counter_invariants (s : BookSide) (ops : List SideOp)
    (hs : sideInvariant s) (hv : validSideOps s ops) (n : Nat) :
    sideInvariant (applySideOps s (ops.take n)) := by
  induction ops generalizing s n with
  | nil =>
      simpa [applySideOps] using hs
  | cons op t ih =>
      cases n with
      | zero => simpa [applySideOps] using hs
      | succ m =>
          cases op with
          | append o =>
              exact ih (s.append o) (sideInvariant_append s o hs) hv m
          | remove o =>
              exact ih ((s.remove o).2)
                (sideInvariant_remove_mem s o hs hv.1) hv.2 m

/-- Witness for the amended C2: append an ask then remove that exact order;
the invariant holds after both prefixes. -/
theorem claim_C2_witness :
    sideInvariant BookSide.new ∧
    validSideOps BookSide.new
      [SideOp.append ⟨1, Side.Ask, 0, 10, 5⟩, SideOp.remove ⟨1, Side.Ask, 0, 10, 5⟩] ∧
    sideInvariant (applySideOps BookSide.new
      ([SideOp.append ⟨1, Side.Ask, 0, 10, 5⟩,
        SideOp.remove ⟨1, Side.Ask, 0, 10, 5⟩].take 2)) := by
  refine ⟨by decide, by decide, ?_⟩
  exact claim_C2_side_counter_invariants BookSide.new
    [SideOp.append ⟨1, Side.Ask, 0, 10, 5⟩, SideOp.remove ⟨1, Side.Ask, 0, 10, 5⟩]
    (by decide) (by decide) 2

/-- **C5** A partial fill preserves the resting order's identity and queue
position: whenever the level at key `p` has head order `h` with
`h.quantity > q`, after `fill_at_price_level` the level's queue is the same
except that the head — still at the front, with unchanged id, timestamp,
side and price — has its quantity reduced by exactly the filled amount. -/
theorem claim_C5_partial_fill_preserves_identity
    (b : OrderBook) (lside : Side) (p q : Decimal) (pl : PriceLevel)
    (h : Order) (t : List Order)
    (hlook : lookupKey (b.sideOf lside).levels p = some pl)
    (horders : pl.orders = h :: t)
    (hq : q < h.quantity) :
    (lookupKey ((b.fill_at_price_level lside p q).2.sideOf lside).levels p).map
        PriceLevel.orders =
      some ({ h with quantity :=
          h.quantity - (b.fill_at_price_level lside p q).1.quantity_filled } :: t) := by
  have hlen : pl.len = t.length + 1 := by simp [PriceLevel.len, horders]
  have hfront : pl.front = some h := by simp [PriceLevel.front, horders]
  by_cases hq0 : 0 < q
  · unfold OrderBook.fill_at_price_level
    simp only [hlook, hlen, OrderBook.fillLoop, hq0, if_true, hfront, hq, PriceLevel.len,
      horders, List.length_cons, Nat.succ_sub_one, gt_iff_lt, Nat.zero_lt_succ,
      lt_irrefl, if_false, List.head?]
    cases lside <;> cases hside : h.side <;>
      simp only [OrderBook.sideOf] at hlook <;>
      simp [OrderBook.partialFillBook, OrderBook.pushFill, hside,
        OrderBook.setSide, OrderBook.sideOf, lookupKey_update_self hlook,
        PriceLevel.replace_front, horders]
  · have hq' : ¬ (q > 0) := hq0
    unfold OrderBook.fill_at_price_level
    simp only [hlook, hlen, OrderBook.fillLoop, gt_iff_lt, hq', if_false]
    simp [horders]

/-- Witness for C5: partially filling 4 of order A (qty 10) at the 75 level
of `bookC1` leaves A at the front with quantity 6 and B untouched behind
it. -/
theorem claim_C5_witness :
    lookupKey (bookC1.sideOf Side.Ask).levels 75 =
      some ⟨20, 75, [⟨1, Side.Ask, 1, 75, 10⟩, ⟨2, Side.Ask, 2, 75, 10⟩]⟩ ∧
    (PriceLevel.mk 20 75 [⟨1, Side.Ask, 1, 75, 10⟩, ⟨2, Side.Ask, 2, 75, 10⟩]).orders =
      ⟨1, Side.Ask, 1, 75, 10⟩ :: [⟨2, Side.Ask, 2, 75, 10⟩] ∧
    (4:Int) < (Order.mk 1 Side.Ask 1 75 10).quantity ∧
    (lookupKey ((bookC1.fill_at_price_level Side.Ask 75 4).2.sideOf Side.Ask).levels 75).map
        PriceLevel.orders =
      some ({ Order.mk 1 Side.Ask 1 75 10 with quantity :=
          (Order.mk 1 Side.Ask 1 75 10).quantity -
            (bookC1.fill_at_price_level Side.Ask 75 4).1.quantity_filled } ::
        [⟨2, Side.Ask, 2, 75, 10⟩]) := by
  refine ⟨by decide, by decide, by decide, ?_⟩
  exact claim_C5_partial_fill_preserves_identity bookC1 Side.Ask 75 4
    ⟨20, 75, [⟨1, Side.Ask, 1, 75, 10⟩, ⟨2, Side.Ask, 2, 75, 10⟩]⟩
    ⟨1, Side.Ask, 1, 75, 10⟩ [⟨2, Side.Ask, 2, 75, 10⟩]
    (by decide) (by decide) (by decide)

/-- **C9 (counterexample)** `PriceLevel::remove` does not locate by id
alone, and a failed removal does not leave the volume unaffected: the level
holds exactly the order with id 1 (qty 5), the argument carries the same
id 1 (qty 3), yet `remove` returns `none` — and the volume has dropped from
5 to 2. -/
theorem claim_C9_counterexample :
    (levelC9.orders.map (fun o => o.id)) = [staleC9.id] ∧
    (levelC9.remove staleC9).1 = none ∧
    levelC9.volume = 5 ∧
    (levelC9.remove staleC9).2.volume = 2 := by
  decide

/-- **C9 (amended)** `PriceLevel::remove(order)` first subtracts
`order.quantity` from `volume` unconditionally; it then locates the first
member equal to `order` in *all* fields (not by id alone): if one exists it
is removed and returned, otherwise the result is absent and the queue — but
not the volume — is unaffected. -/
theorem claim_C9_remove_found_by_full_equality (pl : PriceLevel) (o : Order) :
    (pl.remove o).2.price = pl.price ∧
    (pl.remove o).2.volume = pl.volume - o.quantity ∧
    (o ∈ pl.orders → (pl.remove o).1 = some o ∧
        (pl.remove o).2.orders = pl.orders.erase o) ∧
    (o ∉ pl.orders → (pl.remove o).1 = none ∧
        (pl.remove o).2.orders = pl.orders) :=
  PriceLevel.remove_spec pl o

/-- Witness for the amended C9: removing an exact copy of the sole resting
order succeeds and returns it. -/
theorem claim_C9_witness :
    ((Order.mk 1 Side.Ask 0 10 5) ∈ levelC9.orders) ∧
    (levelC9.remove ⟨1, Side.Ask, 0, 10, 5⟩).1 = some ⟨1, Side.Ask, 0, 10, 5⟩ ∧
    (levelC9.remove ⟨1, Side.Ask, 0, 10, 5⟩).2.orders =
      levelC9.orders.erase ⟨1, Side.Ask, 0, 10, 5⟩ := by
  refine ⟨by decide, ?_⟩
  exact (claim_C9_remove_found_by_full_equality levelC9 ⟨1, Side.Ask, 0, 10, 5⟩).2.2.1 (by decide)

/-- **C6** A market order that exhausts opposing liquidity reports partial
success and leaves no residue: with the book holding only one ask (price 50,
qty 5), a market bid of 20 returns `quantity_filled = 5` with exactly one
Full fill, no resting order and no error channel (the result type has
none), and the book is left empty; and for *every* market order, no order
id appears on either side of the book afterwards that was not there
before — the unfilled remainder is never placed on the book. -/
theorem claim_C6_market_exhausts_liquidity :
    ((bookAsk50.submit_market_order Side.Bid 20).1 =
        { done := [{ order_id := 0, status := FillStatus.Full, price := 50, quantity := 5 }],
          resting := none, quantity_filled := 5 } ∧
     (bookAsk50.submit_market_order Side.Bid 20).2.bookOrders = [] ∧
     (bookAsk50.submit_market_order Side.Bid 20).2.orders = []) ∧
    ∀ (b : OrderBook) (s : Side) (q : Decimal) (i : Nat),
      i ∈ (b.submit_market_order s q).2.bookIds → i ∈ b.bookIds := by
  refine ⟨by decide, ?_⟩
  intro b s q i hi
  unfold OrderBook.submit_market_order at hi
  exact marketLoop_ids_sub s _ b _ q i hi

theorem claim_C6_witness :
    2 ∈ (bookC1.submit_market_order Side.Bid 5).2.bookIds ∧ 2 ∈ bookC1.bookIds :=
  ⟨by decide, claim_C6_market_exhausts_liquidity.2 bookC1 Side.Bid 5 2 (by decide)⟩

/-- **C7** For every `submit_limit_order` call with quantity > 0, the result
carries a resting order iff `quantity_filled < quantity`; when present, the
resting order is on the submitting side, at the submitted limit price, with
quantity equal to `quantity - quantity_filled`, a fresh id and timestamp
drawn from the suppliers at submission, and it has been appended to the
book (found in the global index and resting on the submitting side). -/
theorem claim_C7_limit_resting_iff (b : OrderBook) (s : Side) (q p : Decimal)
    (hq : 0 < q) :
    ((b.submit_limit_order s q p).1.resting.isSome ↔
      (b.submit_limit_order s q p).1.quantity_filled < q) ∧
    ∀ ro, (b.submit_limit_order s q p).1.resting = some ro →
      ro.side = s ∧ ro.price = p ∧
      ro.quantity = q - (b.submit_limit_order s q p).1.quantity_filled ∧
      ro.id = b.nextId ∧ ro.timestamp = b.nextTime ∧
      (b.submit_limit_order s q p).2.get ro.id = some ro ∧
      ro ∈ ((b.submit_limit_order s q p).2.sideOf s).sideOrders := by
  obtain ⟨hrest, hsum, hid, htime⟩ :=
    limitLoop_facts s p ((b.other_book_side s).num_orders + 1) b ⟨[], none, 0⟩ q
  simp only [OrderBook.submit_limit_order]
  by_cases hq0 : (OrderBook.limitLoop s p ((b.other_book_side s).num_orders + 1) b
      ⟨[], none, 0⟩ q).2.1 > 0
  · simp only [hq0, if_true, ite_true]
    simp only [OrderResult.quantity_filled] at hsum
    constructor
    · simp only [Option.isSome_some, true_iff]
      linarith [hsum, hq0]
    · intro ro hro
      injection hro with hro
      subst hro
      refine ⟨rfl, rfl, ?_, hid, htime, get_append_self _ _, ?_⟩
      · show (OrderBook.limitLoop s p ((b.other_book_side s).num_orders + 1) b
            ⟨[], none, 0⟩ q).2.1 =
          q - (OrderBook.limitLoop s p ((b.other_book_side s).num_orders + 1) b
            ⟨[], none, 0⟩ q).1.quantity_filled
        linarith [hsum]
      · exact mem_append_sideOf_self _ _
  · simp only [hq0, if_false, ite_false]
    simp only [OrderResult.resting] at hrest
    simp only [OrderResult.quantity_filled] at hsum
    have hle := not_lt.mp hq0
    constructor
    · rw [hrest]
      simp only [Option.isSome_none, Bool.false_eq_true, false_iff, not_lt]
      linarith [hsum]
    · intro ro hro
      rw [hrest] at hro
      cases hro

/-- Witness for C7: a limit bid for 15 at 55 against `bookAsk50` fills 5
and rests 10 at 55 with fresh id 1 and timestamp 1. -/
theorem claim_C7_witness :
    ((0:Int) < 15) ∧
    ((bookAsk50.submit_limit_order Side.Bid 15 55).1.resting.isSome ↔
      (bookAsk50.submit_limit_order Side.Bid 15 55).1.quantity_filled < 15) ∧
    ((Order.mk 1 Side.Bid 1 55 10).side = Side.Bid ∧
     (Order.mk 1 Side.Bid 1 55 10).price = 55 ∧
     (Order.mk 1 Side.Bid 1 55 10).quantity =
       15 - (bookAsk50.submit_limit_order Side.Bid 15 55).1.quantity_filled ∧
     (Order.mk 1 Side.Bid 1 55 10).id = bookAsk50.nextId ∧
     (Order.mk 1 Side.Bid 1 55 10).timestamp = bookAsk50.nextTime ∧
     (bookAsk50.submit_limit_order Side.Bid 15 55).2.get
         (Order.mk 1 Side.Bid 1 55 10).id =
       some (Order.mk 1 Side.Bid 1 55 10) ∧
     (Order.mk 1 Side.Bid 1 55 10) ∈
       ((bookAsk50.submit_limit_order Side.Bid 15 55).2.sideOf Side.Bid).sideOrders) := by
  refine ⟨by decide, ?_, ?_⟩
  · exact (claim_C7_limit_resting_iff bookAsk50 Side.Bid 15 55 (by decide)).1
  · exact (claim_C7_limit_resting_iff bookAsk50 Side.Bid 15 55 (by decide)).2
      ⟨1, Side.Bid, 1, 55, 10⟩ (by decide)

/-- **C3** After every `OrderBook` operation — `append` of a fresh-id order
(the environment's id supplier never reissues an id), `remove`,
`submit_market_order`, `submit_limit_order` — the book is well-formed: an
order is present in the global id→order index iff it is present in exactly
one `PriceLevel` of exactly one `BookSide`, with the two copies identical
in id, side, timestamp, price and quantity (`OrderBook.wf`); in particular
a partial fill leaves both copies equal to the same reduced order. -/
theorem claim_C3_global_index_consistency :
    (∀ (b : OrderBook) (o : Order), OrderBook.wf b → o.id < b.nextId →
        b.get o.id = none → OrderBook.wf (b.append o)) ∧
    (∀ (b : OrderBook) (id : Nat), OrderBook.wf b →
        OrderBook.wf (b.remove id).2) ∧
    (∀ (b : OrderBook) (s : Side) (q : Decimal), OrderBook.wf b →
        OrderBook.wf (b.submit_market_order s q).2) ∧
    (∀ (b : OrderBook) (s : Side) (q p : Decimal), OrderBook.wf b →
        OrderBook.wf (b.submit_limit_order s q p).2) :=
  ⟨wf_append, wf_remove, wf_submit_market, wf_submit_limit⟩

/-- Witness for C3: appending a fresh bid to the well-formed `bookC1`
yields a well-formed book. -/
theorem claim_C3_witness :
    OrderBook.wf bookC1 ∧ (Order.mk 3 Side.Bid 0 10 5).id < bookC1.nextId ∧
    bookC1.get (Order.mk 3 Side.Bid 0 10 5).id = none ∧
    OrderBook.wf (bookC1.append (Order.mk 3 Side.Bid 0 10 5)) := by
  refine ⟨by decide, by decide, by decide, ?_⟩
  exact claim_C3_global_index_consistency.1 bookC1 ⟨3, Side.Bid, 0, 10, 5⟩
    (by decide) (by decide) (by decide)

end OrderBookRs
